import Mathlib

namespace P2Rating

/-- A record as harvested from the API. The fields `id_employee` and
`date_work` model the presence or absence of those dictionary keys
(absent key modelled as `none`), and `payload` stands for all the remaining
fields of the record, so that two records are equal exactly when the
corresponding Python dictionaries are. -/
structure Rec where
  id_employee : Option String
  date_work : Option String
  payload : Nat
deriving DecidableEq

/-- Numeric encoding of a calendar date as y*10000 + m*100 + d. Months and
days occupy at most two decimal digits, so the encoding is order-isomorphic
to the lexicographic comparison that Python performs on datetime objects. -/
def mkDate (y m d : Nat) : Nat := y * 10000 + m * 100 + d

def isLeapYear (y : Nat) : Bool := (y % 4 == 0 && y % 100 != 0) || y % 400 == 0

def daysInMonth (y m : Nat) : Nat :=
  if m == 2 then (if isLeapYear y then 29 else 28)
  else if m == 4 || m == 6 || m == 9 || m == 11 then 30
  else 31

/-- Split a character list at every dash, like Python str.split("-"). -/
def splitDash : List Char → List Char → List (List Char)
  | [], cur => [cur.reverse]
  | c :: rest, cur =>
    if c = '-' then cur.reverse :: splitDash rest [] else splitDash rest (c :: cur)

/-- The numeric value of a group of decimal digits; none when the group is
empty or contains a non-digit character. -/
def digitsVal (cs : List Char) : Option Nat :=
  if cs.isEmpty || !cs.all Char.isDigit then none
  else some (cs.foldl (fun n c => n * 10 + (c.toNat - 48)) 0)

/-- The day group of strptime: CPython compiles the %d directive to the
regular expression 3[01]|[12]\d|0[1-9]|[1-9]| [1-9], i.e. one or two decimal
digits, or a space followed by a non-zero digit (the ctime-style padded-day
form). The numeric range is re-checked by the caller against the month. -/
def parseDay (ds : List Char) : Option Nat :=
  match ds with
  | [' ', c] => if '1' ≤ c ∧ c ≤ '9' then some (c.toNat - 48) else none
  | _ => digitsVal ds

/-- Model of datetime.strptime(t, "%Y-%m-%d"): CPython compiles %Y to exactly
four decimal digits (years below 1000 must be zero-padded), %m to one or two
digits, %d to one or two digits or the space-padded single-digit form, the
dashes are literal separators, nothing may remain after the match, and the
values must form a real calendar date with year at least 1 (datetime.MINYEAR,
month and day ranges enforced by the datetime constructor). -/
def parseYMD (t : List Char) : Option Nat :=
  match splitDash t [] with
  | [ys, ms, ds] =>
    if ys.length ≠ 4 || ms.length = 0 || 2 < ms.length
        || ds.length = 0 || 2 < ds.length then none
    else
      match digitsVal ys, digitsVal ms, parseDay ds with
      | some y, some m, some d =>
        if 1 ≤ y ∧ 1 ≤ m ∧ m ≤ 12 ∧ 1 ≤ d ∧ d ≤ daysInMonth y m then
          some (mkDate y m d)
        else none
      | _, _, _ => none
  | _ => none

/-- Date-parsing policy of _filter_latest_employee_records: the literal
all-zero date, or any string beginning with 0000, is the sentinel
datetime(1900, 1, 1); otherwise the first 10 characters are parsed with
strptime. -/
def parseDateWork (s : String) : Option Nat :=
  if s == "0000-00-00" || s.toList.take 4 = ['0', '0', '0', '0'] then
    some (mkDate 1900 1 1)
  else parseYMD (s.toList.take 10)

/-- The parsed date of a record's date_work field, when it parses. -/
def parsedOf (r : Rec) : Option Nat := r.date_work.bind parseDateWork

/-- The parsed date the dedup reducer effectively stores alongside a record:
its parsed date_work, or the 1900-01-01 sentinel assigned by the
ValueError fallback when the date fails to parse. -/
def effDate (r : Rec) : Nat :=
  match r.date_work with
  | some dw => (parseDateWork dw).getD (mkDate 1900 1 1)
  | none => mkDate 1900 1 1

/-- A record that _filter_latest_employee_records will consider for employee
id `idv`: both fields are present and truthy (non-empty strings). -/
def isCand (idv : String) (r : Rec) : Bool :=
  r.id_employee == some idv && idv != "" &&
    (match r.date_work with
     | some dw => dw != ""
     | none => false)

/-- Lookup in the insertion-ordered association list that models the Python
dict employee_latest_records. -/
def lookupA (k : String) : List (String × Rec × Nat) → Option (Rec × Nat)
  | [] => none
  | (k2, v) :: rest => if k2 = k then some v else lookupA k rest

/-- Insert-or-update for the insertion-ordered association list: updating an
existing key keeps its position, a new key is appended at the end, exactly as
Python dict assignment behaves. -/
def updA (k : String) (v : Rec × Nat) :
    List (String × Rec × Nat) → List (String × Rec × Nat)
  | [] => [(k, v)]
  | (k2, v2) :: rest => if k2 = k then (k, v) :: rest else (k2, v2) :: updA k v rest

/-- One iteration of the loop of _filter_latest_employee_records: skip records
with a missing or falsy id_employee or date_work, otherwise parse the date and
keep the record when its parsed date is strictly greater than the stored one
(or when the id is new); on parse failure keep the record only when the id is
new, with the sentinel parsed date. -/
def dedupStep (st : List (String × Rec × Nat)) (r : Rec) :
    List (String × Rec × Nat) :=
  match r.id_employee, r.date_work with
  | some empId, some dw =>
    if empId = "" ∨ dw = "" then st
    else
      match parseDateWork dw with
      | some d =>
        match lookupA empId st with
        | some pv => if pv.2 < d then updA empId (r, d) st else st
        | none => updA empId (r, d) st
      | none =>
        match lookupA empId st with
        | some _ => st
        | none => updA empId (r, mkDate 1900 1 1) st
  | _, _ => st

/-- Model of _filter_latest_employee_records: fold the records through the
dict in input order and return the stored records in key-insertion order. -/
def filterLatest (l : List Rec) : List Rec :=
  (l.foldl dedupStep []).map (fun e => e.2.1)

/-- Model of pages_are_identical: False when either page is empty or the
lengths differ, otherwise equality of the canonical JSON serializations,
which for record values coincides with list equality. -/
def pagesAreIdentical (page1 page2 : List Rec) : Bool :=
  if page1.isEmpty || page2.isEmpty then false
  else if page1.length != page2.length then false
  else page1 == page2

/-- The duplicate test performed per page in fetch_all_ratings: the Python
condition previous_page_data and pages_are_identical(items, previous_page_data),
where a previous page of None or an empty list is falsy. -/
def prevDup (items : List Rec) (prev : Option (List Rec)) : Bool :=
  match prev with
  | none => false
  | some pd => !pd.isEmpty && pagesAreIdentical items pd

/-- Consumption of one wave of page results of fetch_all_ratings, in ascending
page order. The oracle gives the result of fetch_page_with_retry for a page:
none models a Failed page, some items a successful response body. Returns
either the final record list (Sum.inl, harvesting ended inside this wave) or
the previous-page/accumulator state for the next wave (Sum.inr). -/
def consumeWave (oracle : Nat → Option (List Rec)) :
    List Nat → Option (List Rec) → List Rec → (List Rec) ⊕ (Option (List Rec) × List Rec)
  | [], prev, acc => .inr (prev, acc)
  | p :: ps, prev, acc =>
    match oracle p with
    | none => .inl acc
    | some items =>
      if items.isEmpty then .inl acc
      else if prevDup items prev then .inl acc
      else consumeWave oracle ps (some items) (acc ++ items)

/-- The wave loop of fetch_all_ratings: every wave submits parallel_requests
fetches (counted in the second component) and then consumes the results in
ascending page order. The Python loop has no page bound, so the model carries
fuel counting waves; a result of none means the fuel ran out. -/
def fetchGo (W : Nat) (oracle : Nat → Option (List Rec)) :
    Nat → Option (List Rec) → List Rec → Nat → Nat → Option (List Rec) × Nat
  | _, _, _, calls, 0 => (none, calls)
  | page, prev, acc, calls, fuel + 1 =>
    match consumeWave oracle (List.range' page W) prev acc with
    | .inl res => (some res, calls + W)
    | .inr (prev2, acc2) => fetchGo W oracle (page + W) prev2 acc2 (calls + W) fuel

/-- Model of fetch_all_ratings: start at page 1 with no previous page and an
empty accumulator. Returns the harvested records (none when the fuel ran out)
together with the number of page-fetch calls issued. -/
def fetchAllRatings (W : Nat) (oracle : Nat → Option (List Rec)) (fuel : Nat) :
    Option (List Rec) × Nat :=
  fetchGo W oracle 1 none [] 0 fuel

/-- The records of pages a, a+1, ..., a+n-1 concatenated in page order. -/
def segRecs (items : Nat → List Rec) (a n : Nat) : List Rec :=
  ((List.range' a n).map items).flatten

/-- A page-level response of the employee-service endpoints: a JSON body,
an HTTP 401, another non-200 status, or a requests.RequestException. -/
inductive EResp where
  | ok (items : List Rec)
  | unauthorized
  | httpError
  | netError
deriving DecidableEq

/-- Outcome of an employee-service harvesting loop: normal completion,
a propagated exception, or exhausted fuel (modelling divergence, which the
Python code exhibits when a page answers 401 forever). -/
inductive EOut where
  | done (records : List Rec)
  | raised
  | fuelOut
deriving DecidableEq

/-- Model of _get_page_hash: the md5 digest of the canonical serialization of
the page, its items sorted by stringified id_employee (missing id defaulting
to the empty string). The digest is modelled by the canonical form itself,
identifying it with the serialized page (md5 collisions are not modelled);
the fallback for non-serializable payloads cannot arise for record values. -/
def pageHash (l : List Rec) : List Rec :=
  l.insertionSort (fun a b => a.id_employee.getD "" ≤ b.id_employee.getD "")

/-- The page loop of get_additional_employees_data_from_api: stop on an empty
page, on a page whose hash was already seen, or on a non-200 status; retry the
same page after 401 (token refresh); a network error raises on page 1 and
stops the loop otherwise. The second component counts page requests. -/
def loopAdd (maxPages : Nat) (oracle : Nat → EResp) :
    Nat → List (List Rec) → List Rec → Nat → Nat → EOut × Nat
  | _, _, _, reqs, 0 => (.fuelOut, reqs)
  | page, seen, acc, reqs, fuel + 1 =>
    if maxPages < page then (.done acc, reqs)
    else
      match oracle page with
      | .ok pageData =>
        if pageData.length = 0 then (.done acc, reqs + 1)
        else if pageHash pageData ∈ seen then (.done acc, reqs + 1)
        else
          loopAdd maxPages oracle (page + 1) (pageHash pageData :: seen)
            (acc ++ pageData) (reqs + 1) fuel
      | .unauthorized => loopAdd maxPages oracle page seen acc (reqs + 1) fuel
      | .httpError => (.done acc, reqs + 1)
      | .netError =>
        if page = 1 then (.raised, reqs + 1) else (.done acc, reqs + 1)

/-- The harvesting phase of get_additional_employees_data_from_api. -/
def additionalHarvest (maxPages : Nat) (oracle : Nat → EResp) (fuel : Nat) :
    EOut × Nat :=
  loopAdd maxPages oracle 1 [] [] 0 fuel

/-- Model of get_additional_employees_data_from_api: the harvested records are
passed through _filter_latest_employee_records before being returned. -/
def getAdditionalEmployeesData (maxPages : Nat) (oracle : Nat → EResp)
    (fuel : Nat) : EOut × Nat :=
  match additionalHarvest maxPages oracle fuel with
  | (.done acc, n) => (.done (filterLatest acc), n)
  | other => other

/-- The page loop of get_all_employees_from_api: stop on an empty page, keep
only records whose id is not yet present (a missing id_employee key raises
KeyError), stop when a page contributes no new record, handle the other
responses as in the additional-data loop. -/
def loopAll (maxPages : Nat) (oracle : Nat → EResp) :
    Nat → List Rec → Nat → Nat → EOut × Nat
  | _, _, reqs, 0 => (.fuelOut, reqs)
  | page, acc, reqs, fuel + 1 =>
    if maxPages < page then (.done acc, reqs)
    else
      match oracle page with
      | .ok pageData =>
        if pageData.length = 0 then (.done acc, reqs + 1)
        else if pageData.any (fun r => r.id_employee.isNone) then (.raised, reqs + 1)
        else
          let existing := acc.map (fun r => r.id_employee)
          let newEmps := pageData.filter (fun r => r.id_employee ∉ existing)
          if newEmps.length = 0 then (.done (acc ++ newEmps), reqs + 1)
          else loopAll maxPages oracle (page + 1) (acc ++ newEmps) (reqs + 1) fuel
      | .unauthorized => loopAll maxPages oracle page acc (reqs + 1) fuel
      | .httpError => (.done acc, reqs + 1)
      | .netError =>
        if page = 1 then (.raised, reqs + 1) else (.done acc, reqs + 1)

/-- Model of get_all_employees_from_api. -/
def getAllEmployees (maxPages : Nat) (oracle : Nat → EResp) (fuel : Nat) :
    EOut × Nat :=
  loopAll maxPages oracle 1 [] 0 fuel

/-- An attempt-level response of one HTTP GET inside fetch_page_with_retry:
a successful body, an error status making raise_for_status throw (401
included), or a requests.RequestException from the transport. -/
inductive HttpResp where
  | success (items : List Rec)
  | httpStatus (code : Nat)
  | netError
deriving DecidableEq

/-- Result of fetch_page_with_retry: the returned value (None on failure),
the number of GET attempts issued, and the waits slept between attempts,
in units of retry_delay (the code sleeps retry_delay * (attempt + 1)). -/
structure FetchResult where
  result : Option (List Rec)
  attempts : Nat
  waits : List Nat
deriving DecidableEq

/-- The attempt loop of fetch_page_with_retry: for attempt in
range(max_retries), any RequestException (an error status raised by
raise_for_status, or a transport error) is retried after a linear-backoff
sleep until the budget is exhausted, in which case None is returned.
The structural argument is the number of remaining loop iterations,
maxRetries - attempt; it reaches 0 only when max_retries is 0 and the
loop body never runs. -/
def fetchAttemptLoop (maxRetries : Nat) (resp : Nat → HttpResp) :
    Nat → Nat → List Nat → FetchResult
  | attempt, 0, waits => ⟨none, attempt, waits⟩
  | attempt, remaining + 1, waits =>
    match resp attempt with
    | .success items => ⟨some items, attempt + 1, waits⟩
    | .httpStatus _ =>
      if attempt < maxRetries - 1 then
        fetchAttemptLoop maxRetries resp (attempt + 1) remaining (waits ++ [attempt + 1])
      else ⟨none, attempt + 1, waits⟩
    | .netError =>
      if attempt < maxRetries - 1 then
        fetchAttemptLoop maxRetries resp (attempt + 1) remaining (waits ++ [attempt + 1])
      else ⟨none, attempt + 1, waits⟩

/-- Model of fetch_page_with_retry. -/
def fetchPageWithRetry (maxRetries : Nat) (resp : Nat → HttpResp) : FetchResult :=
  fetchAttemptLoop maxRetries resp 0 maxRetries []

/-- The recursive retry of post_rating_to_mes: the row-level response oracle
says whether the POST at a given retry_count succeeds; on failure the call
recurses while retry_count < max_retries and reports failure afterwards.
The structural argument is maxRetries + 1 - rc, the number of attempts the
recursion can still make, so its zero branch is unreachable. -/
def postOkGo (maxRetries : Nat) (resp : Nat → Bool) : Nat → Nat → Bool
  | _, 0 => false
  | rc, remaining + 1 =>
    if resp rc then true
    else if rc < maxRetries then postOkGo maxRetries resp (rc + 1) remaining
    else false

/-- Whether post_rating_to_mes eventually reports success for one row. -/
def postOk (maxRetries : Nat) (resp : Nat → Bool) : Bool :=
  postOkGo maxRetries resp 0 (maxRetries + 1)

/-- Model of process_rating_batch: fold the rows of a batch, counting one
success or one error per row. A row is modelled by its attempt-level POST
response oracle. -/
def processRatingBatch (maxRetries : Nat) (rows : List (Nat → Bool)) : Nat × Nat :=
  rows.foldl
    (fun t row => if postOk maxRetries row then (t.1 + 1, t.2) else (t.1, t.2 + 1))
    (0, 0)

/-- The batch partition of upload_ratings: the slices
api_data_list[i : i + bs] for i in range(0, n, bs). -/
def makeBatches (bs : Nat) (rows : List (Nat → Bool)) : List (List (Nat → Bool)) :=
  (List.range ((rows.length + bs - 1) / bs)).map
    (fun j => (rows.drop (j * bs)).take bs)

/-- Model of upload_ratings from the prepared row list on: batched mode when
use_batches holds and there are more rows than batch_size, sequential mode
otherwise. A batch size of zero in batched mode makes Python range raise
ValueError, modelled by none. -/
def uploadRatings (maxRetries bs : Nat) (useBatches : Bool)
    (rows : List (Nat → Bool)) : Option (Nat × Nat) :=
  if useBatches ∧ bs < rows.length then
    if bs = 0 then none
    else
      some (((makeBatches bs rows).map (processRatingBatch maxRetries)).foldl
        (fun t r => (t.1 + r.1, t.2 + r.2)) (0, 0))
  else some (processRatingBatch maxRetries rows)

/-- Invariant of the dict of _filter_latest_employee_records after the
records of `l` have been processed: keys are distinct; every stored entry is a
candidate record from `l` keyed by its own id and stored with its effective
parsed date; an id has an entry exactly when `l` holds a candidate for it; and
a stored parsed date dominates the parsed date of every candidate for that id
whose date parses. -/
def GoodState (l : List Rec) (st : List (String × Rec × Nat)) : Prop :=
  (st.map (fun e => e.1)).Nodup
  ∧ (∀ e ∈ st, isCand e.1 e.2.1 = true ∧ effDate e.2.1 = e.2.2 ∧ e.2.1 ∈ l)
  ∧ (∀ idv : String, (∃ r ∈ l, isCand idv r = true) ↔ ∃ v, lookupA idv st = some v)
  ∧ (∀ idv v, lookupA idv st = some v → ∀ r ∈ l, isCand idv r = true →
      ∀ d, parsedOf r = some d → d ≤ v.2)

/-- The scenario page contents of spec section 8: pages 1 to 3 carry 20
records each with pairwise disjoint ids, page 4 and beyond are empty. -/
def scenPage (p : Nat) : List Rec :=
  if p ≤ 3 then
    (List.range 20).map
      (fun i => ⟨some (toString ((p - 1) * 20 + i)), some "2024-01-01", (p - 1) * 20 + i⟩)
  else []

/-- The page oracle of the scenario: every fetch succeeds. -/
def scenOracle (p : Nat) : Option (List Rec) := some (scenPage p)

/-- A page oracle on which every page is non-empty and distinct from its
predecessor, so that fetch_all_ratings never meets a terminal condition. -/
def endlessOracle (p : Nat) : Option (List Rec) :=
  some [⟨some "x", some "2024-01-01", p⟩]

example : parseDateWork "2024-01-01" = some 20240101 := by decide
example : parseDateWork "999-01-01" = none := by decide
example : parseDateWork "100-01-01" = none := by decide
example : parseDateWork "0999-01-01" = some 9990101 := by decide
example : parseDateWork "2024-01- 1" = some 20240101 := by decide
example : parseDateWork "2024-01- 0" = none := by decide
example : parseDateWork "2024-01-00" = none := by decide
example : parseDateWork "2024-13-01" = none := by decide
example : parseDateWork "0000-00-00" = some 19000101 := by decide
example : parseDateWork "0000-13-99" = some 19000101 := by decide
example : parseDateWork "2023-02-29" = none := by decide
example : parseDateWork "2024-02-29" = some 20240229 := by decide
example : parseDateWork "garbage" = none := by decide
example : parseDateWork "2024-05-07T10:00:00" = some 20240507 := by decide

example :
    filterLatest
      [⟨some "42", some "2024-01-01", 0⟩, ⟨some "42", some "0000-00-00", 1⟩]
      = [⟨some "42", some "2024-01-01", 0⟩] := by decide

example :
    filterLatest
      [⟨some "42", some "0000-00-00", 1⟩, ⟨some "42", some "2024-01-01", 0⟩,
       ⟨some "7", some "bad", 2⟩, ⟨some "7", some "1800-01-01", 3⟩]
      = [⟨some "42", some "2024-01-01", 0⟩, ⟨some "7", some "bad", 2⟩] := by decide

example :
    filterLatest
      [⟨some "42", some "100-01-01", 0⟩, ⟨some "42", some "999-01-01", 1⟩]
      = [⟨some "42", some "100-01-01", 0⟩] := by decide

lemma fetchAttemptLoop_fail (m : Nat) (resp : Nat → HttpResp)
    (hfail : ∀ a its, resp a ≠ .success its) :
    ∀ remaining attempt waits, attempt + remaining = m →
      fetchAttemptLoop m resp attempt remaining waits
        = ⟨none, m, waits ++ List.range' (attempt + 1) (m - 1 - attempt)⟩ := by
  intro remaining
  induction remaining with
  | zero =>
    intro attempt waits h
    have h1 : attempt = m := by omega
    have h2 : m - 1 - attempt = 0 := by omega
    simp [fetchAttemptLoop, h1, h2]
  | succ r ih =>
    intro attempt waits h
    cases hr : resp attempt with
    | success its => exact absurd hr (hfail attempt its)
    | httpStatus c =>
      by_cases hlt : attempt < m - 1
      · rw [fetchAttemptLoop, hr]
        simp only [hlt, if_true]
        rw [ih (attempt + 1) (waits ++ [attempt + 1]) (by omega)]
        have hn : m - 1 - attempt = (m - 1 - (attempt + 1)) + 1 := by omega
        rw [hn, List.range'_succ]
        simp [List.append_assoc]
      · rw [fetchAttemptLoop, hr]
        simp only [hlt, if_false]
        have h1 : attempt + 1 = m := by omega
        have h2 : m - 1 - attempt = 0 := by omega
        simp [h1, h2]
    | netError =>
      by_cases hlt : attempt < m - 1
      · rw [fetchAttemptLoop, hr]
        simp only [hlt, if_true]
        rw [ih (attempt + 1) (waits ++ [attempt + 1]) (by omega)]
        have hn : m - 1 - attempt = (m - 1 - (attempt + 1)) + 1 := by omega
        rw [hn, List.range'_succ]
        simp [List.append_assoc]
      · rw [fetchAttemptLoop, hr]
        simp only [hlt, if_false]
        have h1 : attempt + 1 = m := by omega
        have h2 : m - 1 - attempt = 0 := by omega
        simp [h1, h2]

/-- C7: on transport-level failure at every attempt, fetch_page_with_retry
issues exactly max_retries GET attempts, sleeps retry_delay * i (here recorded
as the factor i) before the 2nd, 3rd, ... attempts — the factors being
1, 2, ..., max_retries - 1 — and returns Failed (None) once the budget is
exhausted. -/
theorem c7_transport_retry_backoff (m : Nat) (resp : Nat → HttpResp)
    (h : ∀ a, resp a = .netError) :
    fetchPageWithRetry m resp = ⟨none, m, List.range' 1 (m - 1)⟩ := by
  unfold fetchPageWithRetry
  rw [fetchAttemptLoop_fail m resp (fun a its => by rw [h a]; intro hc; cases hc) m 0 []
    (by omega)]
  simp

/-- Witness for C7 at max_retries = 3: three attempts, wait factors 1 and 2,
result None. -/
theorem c7_witness :
    fetchPageWithRetry 3 (fun _ => HttpResp.netError) = ⟨none, 3, List.range' 1 2⟩ :=
  c7_transport_retry_backoff 3 (fun _ => HttpResp.netError) (fun _ => rfl)

/-- C4 counterexample: a page whose every fetch answers HTTP 401 is retried
(three attempts under max_retries = 3, not one) and the outcome is the very
value produced by a transport failure, so no distinct unauthorized signal
reaches the caller. -/
theorem c4_counterexample_401_retried :
    (fetchPageWithRetry 3 (fun _ => HttpResp.httpStatus 401)).attempts = 3 ∧
    (fetchPageWithRetry 3 (fun _ => HttpResp.httpStatus 401)).result = none ∧
    fetchPageWithRetry 3 (fun _ => HttpResp.httpStatus 401)
      = fetchPageWithRetry 3 (fun _ => HttpResp.netError) := by
  refine ⟨by decide, by decide, by decide⟩

/-- C4 amended: on HTTP 401 fetch_page_with_retry behaves exactly as on a
transport failure — raise_for_status turns the 401 into a RequestException,
which is retried with the same linear backoff up to max_retries attempts and
then reported as Failed (None); no unauthorized condition is signalled and no
token refresh happens in this path. -/
theorem c4_amended_401_treated_as_failure (m : Nat) (resp : Nat → HttpResp)
    (h : ∀ a, resp a = .httpStatus 401) :
    fetchPageWithRetry m resp = ⟨none, m, List.range' 1 (m - 1)⟩ := by
  unfold fetchPageWithRetry
  rw [fetchAttemptLoop_fail m resp (fun a its => by rw [h a]; intro hc; cases hc) m 0 []
    (by omega)]
  simp

/-- Witness for the amended C4 at max_retries = 3. -/
theorem c4_amended_witness :
    fetchPageWithRetry 3 (fun _ => HttpResp.httpStatus 401)
      = ⟨none, 3, List.range' 1 2⟩ :=
  c4_amended_401_treated_as_failure 3 (fun _ => HttpResp.httpStatus 401) (fun _ => rfl)

lemma processRatingBatch_foldl (m : Nat) :
    ∀ (rows : List (Nat → Bool)) (init : Nat × Nat),
      (rows.foldl
          (fun t row => if postOk m row then (t.1 + 1, t.2) else (t.1, t.2 + 1))
          init).1
        + (rows.foldl
            (fun t row => if postOk m row then (t.1 + 1, t.2) else (t.1, t.2 + 1))
            init).2
        = init.1 + init.2 + rows.length := by
  intro rows
  induction rows with
  | nil => intro init; simp
  | cons row rest ih =>
    intro init
    simp only [List.foldl_cons, List.length_cons]
    by_cases hp : postOk m row
    · rw [if_pos hp]; rw [ih]; omega
    · rw [if_neg hp]; rw [ih]; omega

lemma processRatingBatch_tally (m : Nat) (rows : List (Nat → Bool)) :
    (processRatingBatch m rows).1 + (processRatingBatch m rows).2 = rows.length := by
  have := processRatingBatch_foldl m rows (0, 0)
  simpa [processRatingBatch] using this

lemma makeBatches_cons (bs : Nat) (hbs : 0 < bs) (rows : List (Nat → Bool))
    (hr : rows ≠ []) :
    makeBatches bs rows = rows.take bs :: makeBatches bs (rows.drop bs) := by
  have hlen : 1 ≤ rows.length := by
    cases rows with
    | nil => exact absurd rfl hr
    | cons a l => simp
  unfold makeBatches
  have key : (rows.length + bs - 1) / bs
      = ((rows.drop bs).length + bs - 1) / bs + 1 := by
    rw [List.length_drop]
    rcases le_or_lt rows.length bs with hle | hlt
    · have h1 : rows.length - bs = 0 := by omega
      have h2 : rows.length + bs - 1 = (rows.length - 1) + bs := by omega
      rw [h1, h2, Nat.add_div_right _ hbs]
      have h3 : (rows.length - 1) / bs = 0 := Nat.div_eq_of_lt (by omega)
      have h4 : (0 + bs - 1) / bs = 0 := Nat.div_eq_of_lt (by omega)
      omega
    · have h2 : rows.length + bs - 1 = (rows.length - bs - 1) + bs + bs := by omega
      have h3 : rows.length - bs + bs - 1 = (rows.length - bs - 1) + bs := by omega
      rw [h2, h3, Nat.add_div_right _ hbs, Nat.add_div_right _ hbs]
  rw [key, List.range_succ_eq_map, List.map_cons, List.map_map]
  congr 1
  · simp
  · refine List.map_congr_left ?_
    intro j hj
    simp only [Function.comp_apply, List.drop_drop]
    congr 2
    rw [Nat.succ_mul, Nat.add_comm]

lemma flatten_makeBatches (bs : Nat) (hbs : 0 < bs) :
    ∀ (n : Nat) (rows : List (Nat → Bool)), rows.length = n →
      (makeBatches bs rows).flatten = rows := by
  intro n
  induction n using Nat.strong_induction_on with
  | _ n ih =>
    intro rows hlen
    by_cases hr : rows = []
    · subst hr
      simp [makeBatches, Nat.div_eq_of_lt (show 0 + bs - 1 < bs by omega)]
    · rw [makeBatches_cons bs hbs rows hr, List.flatten_cons]
      have hlen1 : 1 ≤ rows.length := by
        cases rows with
        | nil => exact absurd rfl hr
        | cons a l => simp
      rw [ih ((rows.drop bs).length) (by rw [List.length_drop]; omega)
        (rows.drop bs) rfl]
      exact List.take_append_drop bs rows

lemma uploadTotals (m : Nat) :
    ∀ (bl : List (List (Nat → Bool))) (init : Nat × Nat),
      ((bl.map (processRatingBatch m)).foldl
          (fun t r => (t.1 + r.1, t.2 + r.2)) init).1
        + ((bl.map (processRatingBatch m)).foldl
            (fun t r => (t.1 + r.1, t.2 + r.2)) init).2
        = init.1 + init.2 + (bl.map List.length).sum := by
  intro bl
  induction bl with
  | nil => intro init; simp
  | cons b rest ih =>
    intro init
    simp only [List.map_cons, List.foldl_cons, List.sum_cons]
    rw [ih]
    have := processRatingBatch_tally m b
    omega

/-- C6: in both batched and sequential upload modes, success_count plus
error_count equals the number of rows: each row is counted exactly once, a
row that exhausts its retries counts as one error, and a per-row failure
never aborts the remaining rows (the fold is total). Batch sizes are
positive in any valid configuration. -/
theorem c6_upload_tally (m bs : Nat) (useB : Bool) (rows : List (Nat → Bool))
    (hbs : 0 < bs) :
    ∃ s e, uploadRatings m bs useB rows = some (s, e) ∧ s + e = rows.length := by
  unfold uploadRatings
  by_cases hb : (useB = true) ∧ bs < rows.length
  · rw [if_pos hb, if_neg (by omega : ¬ bs = 0)]
    refine ⟨_, _, rfl, ?_⟩
    have h1 := uploadTotals m (makeBatches bs rows) (0, 0)
    have h2 : ((makeBatches bs rows).map List.length).sum
        = (makeBatches bs rows).flatten.length := (List.length_flatten _).symm
    rw [flatten_makeBatches bs hbs rows.length rows rfl] at h2
    omega
  · rw [if_neg hb]
    exact ⟨_, _, rfl, processRatingBatch_tally m rows⟩

/-- Witness for C6: five rows, batch size 2, batched mode, one row failing
permanently and one succeeding on its second attempt; the tally is 3 + 2 = 5. -/
theorem c6_witness :
    ∃ s e,
      uploadRatings 1 2 true
        [fun _ => true, fun _ => false, fun n => 1 ≤ n, fun _ => true, fun _ => false]
        = some (s, e) ∧
      s + e =
        [fun _ => true, fun _ => false, fun n => decide (1 ≤ n), fun _ => true,
          fun _ => false].length :=
  c6_upload_tally 1 2 true
    [fun _ => true, fun _ => false, fun n => 1 ≤ n, fun _ => true, fun _ => false]
    (by omega)

/-- C8 counterexample: in the scenario where pages 1 to 3 return 20 records
each with disjoint ids and page 4 is empty, the engine under its default
parallel_requests = 20 does return 60 records, but a whole wave of 20
page-fetch calls is issued, not 4. -/
theorem c8_counterexample_fetch_calls :
    ((fetchAllRatings 20 scenOracle 5).1.getD []).length = 60 ∧
    (fetchAllRatings 20 scenOracle 5).2 = 20 ∧
    (fetchAllRatings 20 scenOracle 5).2 ≠ 4 := by
  refine ⟨by decide, by decide, by decide⟩

/-- C8 amended: in the scenario of spec section 8 the engine returns exactly
the 60 records of pages 1 to 3; the number of page-fetch calls is
parallel_requests per executed wave — 20 calls under the default
parallel_requests = 20, and exactly 4 calls precisely in the configurations
parallel_requests = 1, 2 or 4. -/
theorem c8_amended_scenario :
    (fetchAllRatings 20 scenOracle 5).1 = some (segRecs scenPage 1 3) ∧
    (fetchAllRatings 20 scenOracle 5).2 = 20 ∧
    (fetchAllRatings 1 scenOracle 5).1 = some (segRecs scenPage 1 3) ∧
    (fetchAllRatings 1 scenOracle 5).2 = 4 ∧
    (fetchAllRatings 2 scenOracle 5).1 = some (segRecs scenPage 1 3) ∧
    (fetchAllRatings 2 scenOracle 5).2 = 4 ∧
    (fetchAllRatings 4 scenOracle 5).1 = some (segRecs scenPage 1 3) ∧
    (fetchAllRatings 4 scenOracle 5).2 = 4 ∧
    (fetchAllRatings 3 scenOracle 5).2 = 6 := by
  refine ⟨by decide, by decide, by decide, by decide, by decide, by decide,
    by decide, by decide, by decide⟩

lemma isCand_iff (idv : String) (r : Rec) :
    isCand idv r = true ↔
      r.id_employee = some idv ∧ idv ≠ "" ∧ ∃ dw, r.date_work = some dw ∧ dw ≠ "" := by
  cases hdw : r.date_work with
  | none => simp [isCand, hdw]
  | some dw => simp [isCand, hdw, and_assoc]

lemma effDate_parse (r : Rec) (dw : String) (d : Nat) (h1 : r.date_work = some dw)
    (h2 : parseDateWork dw = some d) : effDate r = d := by
  simp [effDate, h1, h2]

lemma effDate_fail (r : Rec) (dw : String) (h1 : r.date_work = some dw)
    (h2 : parseDateWork dw = none) : effDate r = mkDate 1900 1 1 := by
  simp [effDate, h1, h2]

lemma parsedOf_field (r : Rec) (dw : String) (h : r.date_work = some dw) :
    parsedOf r = parseDateWork dw := by
  simp [parsedOf, h]

lemma lookupA_eq_none (k : String) :
    ∀ st : List (String × Rec × Nat),
      lookupA k st = none ↔ k ∉ st.map (fun e => e.1) := by
  intro st
  induction st with
  | nil => simp [lookupA]
  | cons e rest ih =>
    obtain ⟨k2, v⟩ := e
    by_cases hk : k2 = k
    · subst hk; simp [lookupA]
    · simp [lookupA, hk, ih, Ne.symm hk]

lemma updA_not_mem (k : String) (v : Rec × Nat) :
    ∀ st : List (String × Rec × Nat),
      k ∉ st.map (fun e => e.1) → updA k v st = st ++ [(k, v)] := by
  intro st
  induction st with
  | nil => intro _; simp [updA]
  | cons e rest ih =>
    obtain ⟨k2, v2⟩ := e
    intro h
    simp only [List.map_cons, List.mem_cons] at h
    push_neg at h
    simp [updA, Ne.symm h.1, ih h.2]

lemma lookupA_updA_self (k : String) (v : Rec × Nat) :
    ∀ st : List (String × Rec × Nat), lookupA k (updA k v st) = some v := by
  intro st
  induction st with
  | nil => simp [updA, lookupA]
  | cons e rest ih =>
    obtain ⟨k2, v2⟩ := e
    by_cases hk : k2 = k
    · subst hk; simp [updA, lookupA]
    · simp [updA, lookupA, hk, ih]

lemma lookupA_updA_other (k k2 : String) (v : Rec × Nat) (h : k2 ≠ k) :
    ∀ st : List (String × Rec × Nat),
      lookupA k2 (updA k v st) = lookupA k2 st := by
  intro st
  induction st with
  | nil => simp [updA, lookupA, Ne.symm h]
  | cons e rest ih =>
    obtain ⟨k3, v3⟩ := e
    by_cases hk : k3 = k
    · subst hk
      simp [updA, lookupA, Ne.symm h]
    · by_cases hk2 : k3 = k2
      · subst hk2; simp [updA, lookupA, hk]
      · simp [updA, lookupA, hk, hk2, ih]

lemma updA_keys (k : String) (v : Rec × Nat) :
    ∀ st : List (String × Rec × Nat),
      (updA k v st).map (fun e => e.1)
        = if k ∈ st.map (fun e => e.1) then st.map (fun e => e.1)
          else st.map (fun e => e.1) ++ [k] := by
  intro st
  induction st with
  | nil => simp [updA]
  | cons e rest ih =>
    obtain ⟨k2, v2⟩ := e
    by_cases hk : k2 = k
    · subst hk; simp [updA]
    · simp only [updA, if_neg hk, List.map_cons, List.mem_cons]
      rw [ih]
      by_cases hm : k ∈ rest.map (fun e => e.1)
      · simp [hm, Ne.symm hk]
      · simp [hm, Ne.symm hk]

lemma mem_updA (k : String) (v : Rec × Nat) :
    ∀ (st : List (String × Rec × Nat)) (e : String × Rec × Nat),
      (st.map (fun e => e.1)).Nodup →
      (e ∈ updA k v st ↔ e = (k, v) ∨ (e ∈ st ∧ e.1 ≠ k)) := by
  intro st
  induction st with
  | nil =>
    intro e _
    constructor
    · intro h; simp [updA] at h; exact Or.inl h
    · intro h
      rcases h with h | h
      · simp [updA, h]
      · exact absurd h.1 (List.not_mem_nil e)
  | cons e0 rest ih =>
    intro e hnd
    obtain ⟨k2, v2⟩ := e0
    simp only [List.map_cons, List.nodup_cons] at hnd
    by_cases hk : k2 = k
    · have hred : updA k v ((k2, v2) :: rest) = (k, v) :: rest := by simp [updA, hk]
      rw [hred]
      simp only [List.mem_cons]
      constructor
      · rintro (h | h)
        · exact Or.inl h
        · refine Or.inr ⟨Or.inr h, ?_⟩
          intro he
          have hmem : e.1 ∈ rest.map (fun e => e.1) := List.mem_map_of_mem _ h
          rw [he, ← hk] at hmem
          exact hnd.1 hmem
      · rintro (h | ⟨hm, hne⟩)
        · exact Or.inl h
        · rcases hm with h | h
          · exact absurd (show e.1 = k by rw [h]; exact hk) hne
          · exact Or.inr h
    · have hred : updA k v ((k2, v2) :: rest) = (k2, v2) :: updA k v rest := by
        simp [updA, hk]
      rw [hred]
      simp only [List.mem_cons]
      rw [ih e hnd.2]
      constructor
      · rintro (h | h | ⟨hm, hne⟩)
        · refine Or.inr ⟨Or.inl h, ?_⟩
          rw [h]
          exact hk
        · exact Or.inl h
        · exact Or.inr ⟨Or.inr hm, hne⟩
      · rintro (h | ⟨hm, hne⟩)
        · exact Or.inr (Or.inl h)
        · rcases hm with h | h
          · exact Or.inl h
          · exact Or.inr (Or.inr ⟨h, hne⟩)

lemma goodState_noncand (l : List Rec) (st : List (String × Rec × Nat)) (r : Rec)
    (h : GoodState l st) (hnc : ∀ idv, isCand idv r = false) :
    GoodState (l ++ [r]) st := by
  obtain ⟨hnd, hent, hiff, hmax⟩ := h
  refine ⟨hnd, ?_, ?_, ?_⟩
  · intro e he
    obtain ⟨h1, h2, h3⟩ := hent e he
    exact ⟨h1, h2, List.mem_append_left _ h3⟩
  · intro idv
    rw [← hiff idv]
    constructor
    · rintro ⟨r2, hr2, hc⟩
      rcases List.mem_append.mp hr2 with hm | hm
      · exact ⟨r2, hm, hc⟩
      · have heq : r2 = r := by simpa using hm
        rw [heq, hnc idv] at hc
        cases hc
    · rintro ⟨r2, hm, hc⟩
      exact ⟨r2, List.mem_append_left _ hm, hc⟩
  · intro idv v hl r2 hr2 hc d hd
    rcases List.mem_append.mp hr2 with hm | hm
    · exact hmax idv v hl r2 hm hc d hd
    · have heq : r2 = r := by simpa using hm
      rw [heq, hnc idv] at hc
      cases hc

lemma goodState_step (l : List Rec) (st : List (String × Rec × Nat)) (r : Rec)
    (h : GoodState l st) : GoodState (l ++ [r]) (dedupStep st r) := by
  cases hid : r.id_employee with
  | none =>
    have hst : dedupStep st r = st := by
      simp [dedupStep, hid]
    rw [hst]
    refine goodState_noncand l st r h ?_
    intro idv
    rw [Bool.eq_false_iff, Ne, isCand_iff]
    rintro ⟨h1, -, -⟩
    rw [hid] at h1
    exact Option.noConfusion h1
  | some empId =>
    cases hdw : r.date_work with
    | none =>
      have hst : dedupStep st r = st := by
        simp [dedupStep, hid, hdw]
      rw [hst]
      refine goodState_noncand l st r h ?_
      intro idv
      rw [Bool.eq_false_iff, Ne, isCand_iff]
      rintro ⟨-, -, dw, h3, -⟩
      rw [hdw] at h3
      exact Option.noConfusion h3
    | some dw =>
      by_cases hskip : empId = "" ∨ dw = ""
      · have hst : dedupStep st r = st := by
          simp [dedupStep, hid, hdw, hskip]
        rw [hst]
        refine goodState_noncand l st r h ?_
        intro idv
        rw [Bool.eq_false_iff, Ne, isCand_iff]
        rintro ⟨h1, h2, dw2, h3, h4⟩
        rw [hid] at h1
        rw [hdw] at h3
        rcases hskip with h5 | h5
        · exact h2 (by rw [← Option.some_injective _ h1, h5])
        · exact h4 (by rw [← Option.some_injective _ h3, h5])
      · have hcand : isCand empId r = true := by
          rw [isCand_iff]
          push_neg at hskip
          exact ⟨hid, hskip.1, dw, hdw, hskip.2⟩
        have hcandonly : ∀ idv, isCand idv r = true → idv = empId := by
          intro idv hc
          rw [isCand_iff] at hc
          have h1 := hc.1
          rw [hid] at h1
          exact (Option.some_injective _ h1).symm
        have hcands_other : ∀ idv, idv ≠ empId →
            ∀ r2 ∈ l ++ [r], isCand idv r2 = true → r2 ∈ l := by
          intro idv hne r2 hm hc
          rcases List.mem_append.mp hm with h2 | h2
          · exact h2
          · have heq : r2 = r := by simpa using h2
            rw [heq] at hc
            exact absurd (hcandonly idv hc) hne
        obtain ⟨hnd, hent, hiff, hmax⟩ := h
        cases hp : parseDateWork dw with
        | some d =>
          cases hl : lookupA empId st with
          | none =>
            have hst : dedupStep st r = updA empId (r, d) st := by
              simp [dedupStep, hid, hdw, hskip, hp, hl]
            have hkey : empId ∉ st.map (fun e => e.1) :=
              (lookupA_eq_none empId st).mp hl
            rw [hst]
            refine ⟨?_, ?_, ?_, ?_⟩
            · rw [updA_keys, if_neg hkey]
              rw [List.nodup_append]
              refine ⟨hnd, List.nodup_singleton _, ?_⟩
              intro a ha hb
              have : a = empId := by simpa using hb
              rw [this] at ha
              exact hkey ha
            · intro e he
              rw [mem_updA empId (r, d) st e hnd] at he
              rcases he with he | ⟨he, -⟩
              · subst he
                exact ⟨hcand, effDate_parse r dw d hdw hp,
                  List.mem_append_right _ (by simp)⟩
              · obtain ⟨h1, h2, h3⟩ := hent e he
                exact ⟨h1, h2, List.mem_append_left _ h3⟩
            · intro idv
              by_cases hi : idv = empId
              · subst hi
                constructor
                · intro _
                  exact ⟨(r, d), lookupA_updA_self idv (r, d) st⟩
                · intro _
                  exact ⟨r, List.mem_append_right _ (by simp), hcand⟩
              · rw [lookupA_updA_other empId idv (r, d) hi st, ← hiff idv]
                constructor
                · rintro ⟨r2, hr2, hc⟩
                  exact ⟨r2, hcands_other idv hi r2 hr2 hc, hc⟩
                · rintro ⟨r2, hm, hc⟩
                  exact ⟨r2, List.mem_append_left _ hm, hc⟩
            · intro idv v hlv r2 hr2 hc d2 hd2
              by_cases hi : idv = empId
              · subst hi
                rw [lookupA_updA_self idv (r, d) st] at hlv
                have hv : v = (r, d) := (Option.some_injective _ hlv).symm
                subst hv
                rcases List.mem_append.mp hr2 with hm | hm
                · exfalso
                  have : ∃ v2, lookupA idv st = some v2 := (hiff idv).mp ⟨r2, hm, hc⟩
                  rw [hl] at this
                  obtain ⟨v2, hv2⟩ := this
                  exact Option.noConfusion hv2
                · have heq : r2 = r := by simpa using hm
                  rw [heq, parsedOf_field r dw hdw, hp] at hd2
                  have hdd : d = d2 := Option.some_injective _ hd2
                  omega
              · rw [lookupA_updA_other empId idv (r, d) hi st] at hlv
                exact hmax idv v hlv r2 (hcands_other idv hi r2 hr2 hc) hc d2 hd2
          | some pv =>
            by_cases hcmp : pv.2 < d
            · have hst : dedupStep st r = updA empId (r, d) st := by
                simp [dedupStep, hid, hdw, hskip, hp, hl, hcmp]
              have hkey : empId ∈ st.map (fun e => e.1) := by
                by_contra hkey
                rw [← lookupA_eq_none empId st] at hkey
                rw [hl] at hkey
                exact Option.noConfusion hkey
              rw [hst]
              refine ⟨?_, ?_, ?_, ?_⟩
              · rw [updA_keys, if_pos hkey]
                exact hnd
              · intro e he
                rw [mem_updA empId (r, d) st e hnd] at he
                rcases he with he | ⟨he, -⟩
                · subst he
                  exact ⟨hcand, effDate_parse r dw d hdw hp,
                    List.mem_append_right _ (by simp)⟩
                · obtain ⟨h1, h2, h3⟩ := hent e he
                  exact ⟨h1, h2, List.mem_append_left _ h3⟩
              · intro idv
                by_cases hi : idv = empId
                · subst hi
                  constructor
                  · intro _
                    exact ⟨(r, d), lookupA_updA_self idv (r, d) st⟩
                  · intro _
                    exact ⟨r, List.mem_append_right _ (by simp), hcand⟩
                · rw [lookupA_updA_other empId idv (r, d) hi st, ← hiff idv]
                  constructor
                  · rintro ⟨r2, hr2, hc⟩
                    exact ⟨r2, hcands_other idv hi r2 hr2 hc, hc⟩
                  · rintro ⟨r2, hm, hc⟩
                    exact ⟨r2, List.mem_append_left _ hm, hc⟩
              · intro idv v hlv r2 hr2 hc d2 hd2
                by_cases hi : idv = empId
                · subst hi
                  rw [lookupA_updA_self idv (r, d) st] at hlv
                  have hv : v = (r, d) := (Option.some_injective _ hlv).symm
                  subst hv
                  rcases List.mem_append.mp hr2 with hm | hm
                  · have := hmax idv pv hl r2 hm hc d2 hd2
                    simp only []
                    omega
                  · have heq : r2 = r := by simpa using hm
                    rw [heq, parsedOf_field r dw hdw, hp] at hd2
                    have hdd : d = d2 := Option.some_injective _ hd2
                    omega
                · rw [lookupA_updA_other empId idv (r, d) hi st] at hlv
                  exact hmax idv v hlv r2 (hcands_other idv hi r2 hr2 hc) hc d2 hd2
            · have hst : dedupStep st r = st := by
                simp [dedupStep, hid, hdw, hskip, hp, hl, hcmp]
              rw [hst]
              refine ⟨hnd, ?_, ?_, ?_⟩
              · intro e he
                obtain ⟨h1, h2, h3⟩ := hent e he
                exact ⟨h1, h2, List.mem_append_left _ h3⟩
              · intro idv
                by_cases hi : idv = empId
                · subst hi
                  constructor
                  · intro _
                    exact ⟨pv, hl⟩
                  · intro _
                    exact ⟨r, List.mem_append_right _ (by simp), hcand⟩
                · rw [← hiff idv]
                  constructor
                  · rintro ⟨r2, hr2, hc⟩
                    exact ⟨r2, hcands_other idv hi r2 hr2 hc, hc⟩
                  · rintro ⟨r2, hm, hc⟩
                    exact ⟨r2, List.mem_append_left _ hm, hc⟩
              · intro idv v hlv r2 hr2 hc d2 hd2
                by_cases hi : idv = empId
                · subst hi
                  rcases List.mem_append.mp hr2 with hm | hm
                  · exact hmax idv v hlv r2 hm hc d2 hd2
                  · have heq : r2 = r := by simpa using hm
                    rw [heq, parsedOf_field r dw hdw, hp] at hd2
                    have hd2d : d = d2 := Option.some_injective _ hd2
                    rw [hl] at hlv
                    have hv : v = pv := (Option.some_injective _ hlv).symm
                    subst hv
                    omega
                · exact hmax idv v hlv r2 (hcands_other idv hi r2 hr2 hc) hc d2 hd2
        | none =>
          cases hl : lookupA empId st with
          | none =>
            have hst : dedupStep st r = updA empId (r, mkDate 1900 1 1) st := by
              simp [dedupStep, hid, hdw, hskip, hp, hl]
            have hkey : empId ∉ st.map (fun e => e.1) :=
              (lookupA_eq_none empId st).mp hl
            rw [hst]
            refine ⟨?_, ?_, ?_, ?_⟩
            · rw [updA_keys, if_neg hkey]
              rw [List.nodup_append]
              refine ⟨hnd, List.nodup_singleton _, ?_⟩
              intro a ha hb
              have : a = empId := by simpa using hb
              rw [this] at ha
              exact hkey ha
            · intro e he
              rw [mem_updA empId (r, mkDate 1900 1 1) st e hnd] at he
              rcases he with he | ⟨he, -⟩
              · subst he
                exact ⟨hcand, effDate_fail r dw hdw hp,
                  List.mem_append_right _ (by simp)⟩
              · obtain ⟨h1, h2, h3⟩ := hent e he
                exact ⟨h1, h2, List.mem_append_left _ h3⟩
            · intro idv
              by_cases hi : idv = empId
              · subst hi
                constructor
                · intro _
                  exact ⟨(r, mkDate 1900 1 1), lookupA_updA_self idv _ st⟩
                · intro _
                  exact ⟨r, List.mem_append_right _ (by simp), hcand⟩
              · rw [lookupA_updA_other empId idv (r, mkDate 1900 1 1) hi st, ← hiff idv]
                constructor
                · rintro ⟨r2, hr2, hc⟩
                  exact ⟨r2, hcands_other idv hi r2 hr2 hc, hc⟩
                · rintro ⟨r2, hm, hc⟩
                  exact ⟨r2, List.mem_append_left _ hm, hc⟩
            · intro idv v hlv r2 hr2 hc d2 hd2
              by_cases hi : idv = empId
              · subst hi
                rcases List.mem_append.mp hr2 with hm | hm
                · exfalso
                  have : ∃ v2, lookupA idv st = some v2 := (hiff idv).mp ⟨r2, hm, hc⟩
                  rw [hl] at this
                  obtain ⟨v2, hv2⟩ := this
                  exact Option.noConfusion hv2
                · have heq : r2 = r := by simpa using hm
                  rw [heq, parsedOf_field r dw hdw, hp] at hd2
                  exact Option.noConfusion hd2
              · rw [lookupA_updA_other empId idv (r, mkDate 1900 1 1) hi st] at hlv
                exact hmax idv v hlv r2 (hcands_other idv hi r2 hr2 hc) hc d2 hd2
          | some pv =>
            have hst : dedupStep st r = st := by
              simp [dedupStep, hid, hdw, hskip, hp, hl]
            rw [hst]
            refine ⟨hnd, ?_, ?_, ?_⟩
            · intro e he
              obtain ⟨h1, h2, h3⟩ := hent e he
              exact ⟨h1, h2, List.mem_append_left _ h3⟩
            · intro idv
              by_cases hi : idv = empId
              · subst hi
                constructor
                · intro _
                  exact ⟨pv, hl⟩
                · intro _
                  exact ⟨r, List.mem_append_right _ (by simp), hcand⟩
              · rw [← hiff idv]
                constructor
                · rintro ⟨r2, hr2, hc⟩
                  exact ⟨r2, hcands_other idv hi r2 hr2 hc, hc⟩
                · rintro ⟨r2, hm, hc⟩
                  exact ⟨r2, List.mem_append_left _ hm, hc⟩
            · intro idv v hlv r2 hr2 hc d2 hd2
              by_cases hi : idv = empId
              · subst hi
                rcases List.mem_append.mp hr2 with hm | hm
                · exact hmax idv v hlv r2 hm hc d2 hd2
                · have heq : r2 = r := by simpa using hm
                  rw [heq, parsedOf_field r dw hdw, hp] at hd2
                  exact Option.noConfusion hd2
              · exact hmax idv v hlv r2 (hcands_other idv hi r2 hr2 hc) hc d2 hd2

lemma parseDateWork_sentinel (s : String)
    (hs : s.toList.take 4 = ['0', '0', '0', '0']) :
    parseDateWork s = some (mkDate 1900 1 1) := by
  simp only [parseDateWork]
  split
  · rfl
  · rename_i hcond
    exfalso
    apply hcond
    simp only [Bool.or_eq_true, decide_eq_true_eq]
    exact Or.inr hs

lemma goodState_fold (l : List Rec) : GoodState l (l.foldl dedupStep []) := by
  induction l using List.reverseRecOn with
  | nil =>
    refine ⟨by simp, by simp, ?_, ?_⟩
    · intro idv
      simp [lookupA]
    · intro idv v hl
      simp [lookupA] at hl
  | append_singleton l r ih =>
    rw [List.foldl_append]
    simp only [List.foldl_cons, List.foldl_nil]
    exact goodState_step l _ r ih

lemma lookupA_mem (k : String) :
    ∀ (st : List (String × Rec × Nat)) (v : Rec × Nat),
      lookupA k st = some v → (k, v) ∈ st := by
  intro st
  induction st with
  | nil => intro v hl; simp [lookupA] at hl
  | cons e0 rest ih =>
    intro v hl
    obtain ⟨k2, v2⟩ := e0
    by_cases hk : k2 = k
    · subst hk
      simp only [lookupA, if_pos rfl] at hl
      have : v2 = v := Option.some_injective _ hl
      subst this
      simp
    · simp only [lookupA, if_neg hk] at hl
      exact List.mem_cons_of_mem _ (ih v hl)

lemma effDate_of_parsedOf (r : Rec) (d : Nat) (h : parsedOf r = some d) :
    effDate r = d := by
  cases hdw : r.date_work with
  | none =>
    rw [parsedOf, hdw] at h
    exact Option.noConfusion h
  | some dw =>
    rw [parsedOf_field r dw hdw] at h
    exact effDate_parse r dw d hdw h

lemma state_filter (idv : String) :
    ∀ (st : List (String × Rec × Nat)) (v : Rec × Nat),
      (st.map (fun e => e.1)).Nodup →
      (∀ e ∈ st, e.2.1.id_employee = some e.1) →
      lookupA idv st = some v →
      (st.map (fun e => e.2.1)).filter (fun r => r.id_employee == some idv)
        = [v.1] := by
  intro st
  induction st with
  | nil => intro v _ _ hl; simp [lookupA] at hl
  | cons e0 rest ih =>
    intro v hnd hids hl
    obtain ⟨k, w⟩ := e0
    simp only [List.map_cons, List.nodup_cons] at hnd
    have hkid : w.1.id_employee = some k := hids (k, w) (by simp)
    by_cases hk : k = idv
    · subst hk
      simp only [lookupA, if_pos rfl] at hl
      have hw : w = v := Option.some_injective _ hl
      subst hw
      simp only [List.map_cons, List.filter_cons]
      rw [if_pos (by simp [hkid])]
      congr 1
      rw [List.filter_eq_nil_iff]
      intro r hr
      obtain ⟨e, he, hre⟩ := List.mem_map.mp hr
      have hide : e.2.1.id_employee = some e.1 := hids e (List.mem_cons_of_mem _ he)
      have hne : e.1 ≠ k := by
        intro hcontra
        exact hnd.1 (hcontra ▸ List.mem_map_of_mem (fun e => e.1) he)
      rw [← hre]
      simp [hide, hne]
    · simp only [lookupA, if_neg hk] at hl
      simp only [List.map_cons, List.filter_cons]
      rw [if_neg (by simp [hkid]; intro hcontra; exact hk hcontra)]
      exact ih v hnd.2 (fun e he => hids e (List.mem_cons_of_mem _ he)) hl

/-- C1: for every record list and every id with at least one candidate record
(id and date both present and truthy), the output of
_filter_latest_employee_records contains exactly one record with that id; that
record comes from the input, its effective parsed date dominates the parsed
date of every candidate whose date parses (and equals its own parsed date when
it parses); whenever some candidate carries a real date later than the
sentinel, the kept record is not all-zero-dated; and every string beginning
with 0000 (the literal 0000-00-00 included) parses to the minimum sentinel
date, year 1900. -/
theorem c1_filter_latest_dedup (l : List Rec) (idv : String)
    (hex : ∃ r ∈ l, isCand idv r = true) :
    ∃ r0,
      (filterLatest l).filter (fun r => r.id_employee == some idv) = [r0]
      ∧ r0 ∈ l ∧ isCand idv r0 = true
      ∧ (∀ r ∈ l, isCand idv r = true → ∀ d, parsedOf r = some d → d ≤ effDate r0)
      ∧ (∀ d0, parsedOf r0 = some d0 → effDate r0 = d0)
      ∧ (∀ r ∈ l, isCand idv r = true → ∀ d, parsedOf r = some d →
          mkDate 1900 1 1 < d → ∀ dw0, r0.date_work = some dw0 →
            ¬ dw0.toList.take 4 = ['0', '0', '0', '0'])
      ∧ (∀ s : String, s.toList.take 4 = ['0', '0', '0', '0'] →
          parseDateWork s = some (mkDate 1900 1 1)) := by
  obtain ⟨hnd, hent, hiff, hmax⟩ := goodState_fold l
  obtain ⟨v, hv⟩ := (hiff idv).mp hex
  have hventry := hent (idv, v) (lookupA_mem idv _ v hv)
  have hvid : v.1.id_employee = some idv := ((isCand_iff idv v.1).mp hventry.1).1
  have hveff : effDate v.1 = v.2 := hventry.2.1
  refine ⟨v.1, ?_, hventry.2.2, hventry.1, ?_, ?_, ?_, ?_⟩
  · rw [filterLatest]
    exact state_filter idv _ v hnd
      (fun e he => ((isCand_iff e.1 e.2.1).mp (hent e he).1).1) hv
  · intro r hr hc d hd
    have := hmax idv v hv r hr hc d hd
    omega
  · intro d0 h0
    exact effDate_of_parsedOf v.1 d0 h0
  · intro r hr hc d hd hgt dw0 h0 hstart
    have hp0 : parseDateWork dw0 = some (mkDate 1900 1 1) :=
      parseDateWork_sentinel dw0 hstart
    have heff : effDate v.1 = mkDate 1900 1 1 := effDate_parse v.1 dw0 _ h0 hp0
    have hle := hmax idv v hv r hr hc d hd
    omega
  · intro s hs
    exact parseDateWork_sentinel s hs

/-- Witness for C1: the spec scenario with two records for id 42, one dated
2024-01-01 and one with the sentinel 0000-00-00; the 2024 record is kept. -/
theorem c1_witness :
    ∃ r0,
      (filterLatest
          [⟨some "42", some "2024-01-01", 0⟩, ⟨some "42", some "0000-00-00", 1⟩]).filter
          (fun r => r.id_employee == some "42") = [r0]
      ∧ r0 ∈ [(⟨some "42", some "2024-01-01", 0⟩ : Rec),
              ⟨some "42", some "0000-00-00", 1⟩]
      ∧ isCand "42" r0 = true
      ∧ (∀ r ∈ [(⟨some "42", some "2024-01-01", 0⟩ : Rec),
              ⟨some "42", some "0000-00-00", 1⟩], isCand "42" r = true →
          ∀ d, parsedOf r = some d → d ≤ effDate r0)
      ∧ (∀ d0, parsedOf r0 = some d0 → effDate r0 = d0)
      ∧ (∀ r ∈ [(⟨some "42", some "2024-01-01", 0⟩ : Rec),
              ⟨some "42", some "0000-00-00", 1⟩], isCand "42" r = true →
          ∀ d, parsedOf r = some d →
          mkDate 1900 1 1 < d → ∀ dw0, r0.date_work = some dw0 →
            ¬ dw0.toList.take 4 = ['0', '0', '0', '0'])
      ∧ (∀ s : String, s.toList.take 4 = ['0', '0', '0', '0'] →
          parseDateWork s = some (mkDate 1900 1 1)) :=
  c1_filter_latest_dedup
    [⟨some "42", some "2024-01-01", 0⟩, ⟨some "42", some "0000-00-00", 1⟩]
    "42" (by decide)

lemma lookupA_append_none (k : String) :
    ∀ (st1 st2 : List (String × Rec × Nat)), lookupA k st1 = none →
      lookupA k (st1 ++ st2) = lookupA k st2 := by
  intro st1
  induction st1 with
  | nil => intro st2 _; simp
  | cons e0 rest ih =>
    intro st2 h
    obtain ⟨k2, v2⟩ := e0
    by_cases hk : k2 = k
    · simp only [lookupA, if_pos hk] at h
      exact Option.noConfusion h
    · simp only [lookupA, if_neg hk] at h
      simp only [List.cons_append, lookupA, if_neg hk]
      exact ih st2 h

lemma foldl_dedup_selfKeyed :
    ∀ (m : List Rec) (st : List (String × Rec × Nat)),
      (∀ r ∈ m, ∃ idr dwr, r.id_employee = some idr ∧ idr ≠ ""
        ∧ r.date_work = some dwr ∧ dwr ≠ "") →
      (∀ r ∈ m, ∀ idr, r.id_employee = some idr → lookupA idr st = none) →
      (m.map (fun r => r.id_employee)).Nodup →
      m.foldl dedupStep st
        = st ++ m.map (fun r => (r.id_employee.getD "", r, effDate r)) := by
  intro m
  induction m with
  | nil => intro st _ _ _; simp
  | cons r rest ih =>
    intro st hshape hdis hnodup
    obtain ⟨idr, dwr, hid, hidne, hdw, hdwne⟩ := hshape r (by simp)
    have hlook : lookupA idr st = none := hdis r (by simp) idr hid
    have hkey : idr ∉ st.map (fun e => e.1) := (lookupA_eq_none idr st).mp hlook
    have hcond : ¬(idr = "" ∨ dwr = "") := by
      rintro (h | h)
      · exact hidne h
      · exact hdwne h
    have hstep : dedupStep st r = st ++ [(idr, r, effDate r)] := by
      cases hp : parseDateWork dwr with
      | some d =>
        have hred : dedupStep st r = updA idr (r, d) st := by
          simp [dedupStep, hid, hdw, hcond, hp, hlook]
        rw [hred, updA_not_mem idr _ st hkey, effDate_parse r dwr d hdw hp]
      | none =>
        have hred : dedupStep st r = updA idr (r, mkDate 1900 1 1) st := by
          simp [dedupStep, hid, hdw, hcond, hp, hlook]
        rw [hred, updA_not_mem idr _ st hkey, effDate_fail r dwr hdw hp]
    rw [List.foldl_cons, hstep]
    simp only [List.map_cons, List.nodup_cons] at hnodup
    rw [ih (st ++ [(idr, r, effDate r)]) ?hsh ?hdj ?hnd]
    case hsh =>
      intro r2 hm
      exact hshape r2 (List.mem_cons_of_mem _ hm)
    case hdj =>
      intro r2 hm idr2 hid2
      have hne : idr2 ≠ idr := by
        intro hcontra
        apply hnodup.1
        have : r2.id_employee ∈ rest.map (fun r => r.id_employee) :=
          List.mem_map_of_mem _ hm
        rw [hid2, hcontra, ← hid] at this
        exact this
      rw [lookupA_append_none idr2 st _ (hdis r2 (List.mem_cons_of_mem _ hm) idr2 hid2)]
      simp [lookupA, Ne.symm hne]
    case hnd => exact hnodup.2
    rw [List.map_cons, List.append_assoc]
    congr 2
    simp [hid]

/-- C9: the dedup reducer is idempotent — applying
_filter_latest_employee_records to its own output returns the very same
record list, hence the same set of records (a fixed point). -/
theorem c9_dedup_idempotent (l : List Rec) :
    filterLatest (filterLatest l) = filterLatest l := by
  obtain ⟨hnd, hent, hiff, hmax⟩ := goodState_fold l
  have hshape : ∀ r ∈ (l.foldl dedupStep []).map (fun e => e.2.1),
      ∃ idr dwr, r.id_employee = some idr ∧ idr ≠ ""
        ∧ r.date_work = some dwr ∧ dwr ≠ "" := by
    intro r hm
    obtain ⟨e, he, hre⟩ := List.mem_map.mp hm
    have hc := (isCand_iff e.1 e.2.1).mp (hent e he).1
    obtain ⟨h1, h2, dw, h3, h4⟩ := hc
    exact ⟨e.1, dw, by rw [← hre]; exact h1, h2, by rw [← hre]; exact h3, h4⟩
  have hdis : ∀ r ∈ (l.foldl dedupStep []).map (fun e => e.2.1),
      ∀ idr, r.id_employee = some idr → lookupA idr ([] : List (String × Rec × Nat)) = none := by
    intro r _ idr _
    simp [lookupA]
  have hnodup : (((l.foldl dedupStep []).map (fun e => e.2.1)).map
      (fun r => r.id_employee)).Nodup := by
    have heq : ((l.foldl dedupStep []).map (fun e => e.2.1)).map
        (fun r => r.id_employee)
        = ((l.foldl dedupStep []).map (fun e => e.1)).map some := by
      rw [List.map_map, List.map_map]
      apply List.map_congr_left
      intro e he
      exact ((isCand_iff e.1 e.2.1).mp (hent e he).1).1
    rw [heq]
    exact hnd.map (Option.some_injective _)
  have hrun := foldl_dedup_selfKeyed ((l.foldl dedupStep []).map (fun e => e.2.1))
    [] hshape hdis hnodup
  show (((filterLatest l).foldl dedupStep []).map (fun e => e.2.1)) = filterLatest l
  rw [show filterLatest l = (l.foldl dedupStep []).map (fun e => e.2.1) from rfl]
  rw [hrun]
  simp [List.map_map]

lemma pagesAreIdentical_ne (a b : List Rec) (h : a ≠ b) :
    pagesAreIdentical a b = false := by
  unfold pagesAreIdentical
  split_ifs <;> simp [h]

lemma pagesAreIdentical_self (a : List Rec) (h : a ≠ []) :
    pagesAreIdentical a a = true := by
  unfold pagesAreIdentical
  split_ifs with h1 h2
  · simp [List.isEmpty_iff, h] at h1
  · simp at h2
  · simp

lemma segRecs_add (items : Nat → List Rec) (a m n : Nat) :
    segRecs items a (m + n) = segRecs items a m ++ segRecs items (a + m) n := by
  unfold segRecs
  have h := List.range'_append a m n 1
  simp only [one_mul] at h
  rw [Nat.add_comm m n, ← h, List.map_append, List.flatten_append]

lemma segRecs_zero (items : Nat → List Rec) (a : Nat) : segRecs items a 0 = [] := by
  simp [segRecs]

lemma segRecs_succ (items : Nat → List Rec) (a n : Nat) :
    segRecs items a (n + 1) = items a ++ segRecs items (a + 1) n := by
  simp [segRecs, List.range'_succ]

lemma consumeWave_append_inr (oracle : Nat → Option (List Rec)) :
    ∀ (l1 l2 : List Nat) (prev prev2 : Option (List Rec)) (acc acc2 : List Rec),
      consumeWave oracle l1 prev acc = .inr (prev2, acc2) →
      consumeWave oracle (l1 ++ l2) prev acc = consumeWave oracle l2 prev2 acc2 := by
  intro l1
  induction l1 with
  | nil =>
    intro l2 prev prev2 acc acc2 h
    simp only [consumeWave] at h
    injection h with hpair
    have h1 : prev = prev2 := congrArg Prod.fst hpair
    have h2 : acc = acc2 := congrArg Prod.snd hpair
    subst h1
    subst h2
    simp
  | cons p ps ih =>
    intro l2 prev prev2 acc acc2 h
    simp only [consumeWave] at h
    simp only [List.cons_append, consumeWave]
    cases horc : oracle p with
    | none =>
      simp only [horc] at h
      exact Sum.noConfusion h
    | some items =>
      simp only [horc] at h ⊢
      by_cases hemp : items.isEmpty = true
      · rw [if_pos hemp] at h
        exact Sum.noConfusion h
      · rw [if_neg hemp] at h
        by_cases hdup : prevDup items prev = true
        · rw [if_pos hdup] at h
          exact Sum.noConfusion h
        · rw [if_neg hdup] at h
          rw [if_neg hemp, if_neg hdup]
          exact ih l2 _ _ _ _ h

lemma consumeWave_good (oracle : Nat → Option (List Rec)) (items : Nat → List Rec)
    (k : Nat)
    (H1 : ∀ p, 1 ≤ p → p < k → oracle p = some (items p))
    (H2 : ∀ p, 1 ≤ p → p < k → items p ≠ [])
    (H3 : ∀ p, 2 ≤ p → p < k → items p ≠ items (p - 1)) :
    ∀ (n page : Nat) (prev : Option (List Rec)) (acc : List Rec),
      1 ≤ page → page + n ≤ k →
      (page = 1 ∧ prev = none ∨ 2 ≤ page ∧ prev = some (items (page - 1))) →
      ∃ prev2,
        consumeWave oracle (List.range' page n) prev acc
          = .inr (prev2, acc ++ segRecs items page n)
        ∧ (page + n = 1 ∧ prev2 = none
           ∨ 2 ≤ page + n ∧ prev2 = some (items (page + n - 1))) := by
  intro n
  induction n with
  | zero =>
    intro page prev acc h1 h2 hprev
    refine ⟨prev, ?_, ?_⟩
    · simp [consumeWave, segRecs]
    · simpa using hprev
  | succ n ih =>
    intro page prev acc h1 h2 hprev
    have hpk : page < k := by omega
    rw [List.range'_succ]
    simp only [consumeWave, H1 page h1 hpk]
    have hemp : ¬ (items page).isEmpty = true := by
      rw [List.isEmpty_iff]
      exact H2 page h1 hpk
    rw [if_neg hemp]
    have hdup : ¬ prevDup (items page) prev = true := by
      rcases hprev with ⟨hp1, hpn⟩ | ⟨hp2, hps⟩
      · rw [hpn]
        simp [prevDup]
      · rw [hps]
        have hne : items page ≠ items (page - 1) := H3 page hp2 hpk
        simp [prevDup, pagesAreIdentical_ne _ _ hne]
    rw [if_neg hdup]
    obtain ⟨prev2, heq, hcond⟩ := ih (page + 1) (some (items page)) (acc ++ items page)
      (by omega) (by omega)
      (Or.inr ⟨by omega, by simp⟩)
    refine ⟨prev2, ?_, ?_⟩
    · rw [heq, segRecs_succ, ← List.append_assoc]
    · have harith : page + (n + 1) = (page + 1) + n := by omega
      rw [harith]
      exact hcond

lemma fetchGo_terminal (W : Nat) (oracle : Nat → Option (List Rec))
    (items : Nat → List Rec) (k : Nat) (hW : 1 ≤ W)
    (H1 : ∀ p, 1 ≤ p → p < k → oracle p = some (items p))
    (H2 : ∀ p, 1 ≤ p → p < k → items p ≠ [])
    (H3 : ∀ p, 2 ≤ p → p < k → items p ≠ items (p - 1))
    (Hterm : ∀ (rest : List Nat) (prev : Option (List Rec)) (acc : List Rec),
      (k = 1 ∧ prev = none ∨ 2 ≤ k ∧ prev = some (items (k - 1))) →
      consumeWave oracle (k :: rest) prev acc = .inl acc) :
    ∀ (fuel page : Nat) (prev : Option (List Rec)) (acc : List Rec) (calls : Nat),
      1 ≤ page → page ≤ k →
      (page = 1 ∧ prev = none ∨ 2 ≤ page ∧ prev = some (items (page - 1))) →
      k + 1 - page ≤ fuel →
      (fetchGo W oracle page prev acc calls fuel).1
        = some (acc ++ segRecs items page (k - page)) := by
  intro fuel
  induction fuel with
  | zero =>
    intro page prev acc calls h1 h2 hprev hf
    omega
  | succ f ih =>
    intro page prev acc calls h1 h2 hprev hf
    by_cases hcase : page + W ≤ k
    · obtain ⟨prev2, heq, hcond⟩ :=
        consumeWave_good oracle items k H1 H2 H3 W page prev acc h1 hcase hprev
      simp only [fetchGo, heq]
      rw [ih (page + W) prev2 (acc ++ segRecs items page W) (calls + W)
        (by omega) (by omega) hcond (by omega)]
      have harith : k - page = W + (k - (page + W)) := by omega
      rw [harith, segRecs_add, List.append_assoc]
    · have hj : k - page < W := by omega
      obtain ⟨prev2, heq, hcond⟩ :=
        consumeWave_good oracle items k H1 H2 H3 (k - page) page prev acc h1
          (by omega) hprev
      have hsplit : List.range' page W
          = List.range' page (k - page) ++ List.range' k (W - (k - page)) := by
        have h4 := List.range'_append page (k - page) (W - (k - page)) 1
        simp only [one_mul] at h4
        rw [show page + (k - page) = k from by omega] at h4
        conv_lhs => rw [show W = W - (k - page) + (k - page) from by omega]
        exact h4.symm
      have hk1 : 1 ≤ W - (k - page) := by omega
      have hterm2 : consumeWave oracle (List.range' k (W - (k - page))) prev2
          (acc ++ segRecs items page (k - page))
          = .inl (acc ++ segRecs items page (k - page)) := by
        rw [show W - (k - page) = (W - (k - page) - 1) + 1 from by omega,
          List.range'_succ]
        apply Hterm
        have harith : page + (k - page) = k := by omega
        rw [harith] at hcond
        exact hcond
      simp only [fetchGo, hsplit]
      rw [consumeWave_append_inr oracle _ _ prev prev2 acc _ heq, hterm2]

/-- C5: when pages 1 .. k-1 succeed with non-empty, non-repeating content and
page k is Failed (its retries exhausted, so fetch_page_with_retry returned
None), fetch_all_ratings halts at page k and returns exactly the records of
pages 1 .. k-1 in page order — no page at or after the failure contributes,
whatever the wave width. -/
theorem c5_failed_page_halts (W k fuel : Nat) (oracle : Nat → Option (List Rec))
    (items : Nat → List Rec) (hW : 1 ≤ W) (hk : 1 ≤ k)
    (hok : ∀ p ∈ List.range' 1 (k - 1), oracle p = some (items p))
    (hne : ∀ p ∈ List.range' 1 (k - 1), items p ≠ [])
    (hadj : ∀ p ∈ List.range' 2 (k - 2), items p ≠ items (p - 1))
    (hfail : oracle k = none)
    (hfuel : k ≤ fuel) :
    (fetchAllRatings W oracle fuel).1 = some (segRecs items 1 (k - 1)) := by
  have H1 : ∀ p, 1 ≤ p → p < k → oracle p = some (items p) := by
    intro p hp1 hpk
    exact hok p (List.mem_range'_1.mpr ⟨hp1, by omega⟩)
  have H2 : ∀ p, 1 ≤ p → p < k → items p ≠ [] := by
    intro p hp1 hpk
    exact hne p (List.mem_range'_1.mpr ⟨hp1, by omega⟩)
  have H3 : ∀ p, 2 ≤ p → p < k → items p ≠ items (p - 1) := by
    intro p hp2 hpk
    exact hadj p (List.mem_range'_1.mpr ⟨hp2, by omega⟩)
  have Hterm : ∀ (rest : List Nat) (prev : Option (List Rec)) (acc : List Rec),
      (k = 1 ∧ prev = none ∨ 2 ≤ k ∧ prev = some (items (k - 1))) →
      consumeWave oracle (k :: rest) prev acc = .inl acc := by
    intro rest prev acc _
    simp [consumeWave, hfail]
  have hrun := fetchGo_terminal W oracle items k hW H1 H2 H3 Hterm fuel 1 none [] 0
    (by omega) hk (Or.inl ⟨rfl, rfl⟩) (by omega)
  unfold fetchAllRatings
  rw [hrun]
  simp

/-- Witness for C5: page 1 returns one record, page 2 fails; the result is
page 1's records. -/
theorem c5_witness :
    (fetchAllRatings 1
        (fun p => if p = 1 then some [⟨some "1", some "2024-01-01", 1⟩] else none)
        2).1
      = some (segRecs (fun _ => [⟨some "1", some "2024-01-01", 1⟩]) 1 1) :=
  c5_failed_page_halts 1 2 2
    (fun p => if p = 1 then some [⟨some "1", some "2024-01-01", 1⟩] else none)
    (fun _ => [⟨some "1", some "2024-01-01", 1⟩])
    (by omega) (by omega) (by decide) (by decide) (by decide) (by decide) (by omega)

lemma loopAdd_run (maxPages : Nat) (oracleE : Nat → EResp) (items : Nat → List Rec)
    (k : Nat) (hkm : k ≤ maxPages + 1)
    (E1 : ∀ p, 1 ≤ p → p < k → oracleE p = .ok (items p))
    (E2 : ∀ p, 1 ≤ p → p < k → items p ≠ [])
    (E3 : ∀ p q, 1 ≤ p → p < q → q < k → pageHash (items p) ≠ pageHash (items q)) :
    ∀ (n page : Nat) (seen : List (List Rec)) (acc : List Rec) (reqs fuel : Nat),
      1 ≤ page → page + n = k → n ≤ fuel →
      (∀ x, x ∈ seen ↔ ∃ q, 1 ≤ q ∧ q < page ∧ x = pageHash (items q)) →
      ∃ seen2,
        loopAdd maxPages oracleE page seen acc reqs fuel
          = loopAdd maxPages oracleE k seen2 (acc ++ segRecs items page n)
              (reqs + n) (fuel - n)
        ∧ (∀ x, x ∈ seen2 ↔ ∃ q, 1 ≤ q ∧ q < k ∧ x = pageHash (items q)) := by
  intro n
  induction n with
  | zero =>
    intro page seen acc reqs fuel h1 h2 h3 hseen
    have hpk : page = k := by omega
    subst hpk
    refine ⟨seen, ?_, hseen⟩
    simp [segRecs_zero]
  | succ n ih =>
    intro page seen acc reqs fuel h1 h2 h3 hseen
    have hpk : page < k := by omega
    have hpm : ¬ maxPages < page := by omega
    obtain ⟨fuel2, rfl⟩ : ∃ f2, fuel = f2 + 1 := ⟨fuel - 1, by omega⟩
    simp only [loopAdd]
    rw [if_neg hpm]
    simp only [E1 page h1 hpk]
    have hlen : ¬ (items page).length = 0 := by
      rw [List.length_eq_zero]
      exact E2 page h1 hpk
    rw [if_neg hlen]
    have hmem : ¬ pageHash (items page) ∈ seen := by
      rw [hseen]
      rintro ⟨q, hq1, hq2, hqe⟩
      exact E3 q page hq1 hq2 hpk hqe.symm
    rw [if_neg hmem]
    have hnewseen : ∀ x, x ∈ pageHash (items page) :: seen ↔
        ∃ q, 1 ≤ q ∧ q < page + 1 ∧ x = pageHash (items q) := by
      intro x
      simp only [List.mem_cons, hseen]
      constructor
      · rintro (h | ⟨q, hq1, hq2, hqe⟩)
        · exact ⟨page, h1, by omega, h⟩
        · exact ⟨q, hq1, by omega, hqe⟩
      · rintro ⟨q, hq1, hq2, hqe⟩
        by_cases hq : q = page
        · subst hq
          exact Or.inl hqe
        · exact Or.inr ⟨q, hq1, by omega, hqe⟩
    obtain ⟨seen2, heq, hs2⟩ := ih (page + 1) (pageHash (items page) :: seen)
      (acc ++ items page) (reqs + 1) fuel2 (by omega) (by omega) (by omega) hnewseen
    refine ⟨seen2, ?_, hs2⟩
    rw [heq, segRecs_succ, ← List.append_assoc,
      show reqs + (n + 1) = reqs + 1 + n from by omega,
      show fuel2 + 1 - (n + 1) = fuel2 - n from by omega]

/-- C3: when the first terminal condition of a page sequence is an empty page
at position k (pages 1 .. k-1 succeeding, non-empty and pairwise distinct),
both harvesting engines stop exactly at page k and return all records gathered
from the prior pages unmodified and in collection order: fetch_all_ratings
returns their concatenation, and the harvesting loop of
get_additional_employees_data_from_api finishes with the same concatenation
after k page requests, the function then returning its dedup-filtered form. -/
theorem c3_empty_page_stops (W k fuel maxPages fuelE : Nat)
    (oracle : Nat → Option (List Rec)) (oracleE : Nat → EResp)
    (items : Nat → List Rec)
    (hW : 1 ≤ W) (hk : 1 ≤ k) (hkm : k ≤ maxPages)
    (hok : ∀ p ∈ List.range' 1 (k - 1), oracle p = some (items p))
    (hokE : ∀ p ∈ List.range' 1 (k - 1), oracleE p = .ok (items p))
    (hne : ∀ p ∈ List.range' 1 (k - 1), items p ≠ [])
    (hdist : ∀ p ∈ List.range' 1 (k - 1), ∀ q ∈ List.range' 1 (k - 1), p < q →
      pageHash (items p) ≠ pageHash (items q))
    (hempty : oracle k = some []) (hemptyE : oracleE k = .ok [])
    (hfuel : k ≤ fuel) (hfuelE : k ≤ fuelE) :
    (fetchAllRatings W oracle fuel).1 = some (segRecs items 1 (k - 1))
    ∧ additionalHarvest maxPages oracleE fuelE
        = (.done (segRecs items 1 (k - 1)), k)
    ∧ getAdditionalEmployeesData maxPages oracleE fuelE
        = (.done (filterLatest (segRecs items 1 (k - 1))), k) := by
  have H1 : ∀ p, 1 ≤ p → p < k → oracle p = some (items p) := by
    intro p hp1 hpk
    exact hok p (List.mem_range'_1.mpr ⟨hp1, by omega⟩)
  have H2 : ∀ p, 1 ≤ p → p < k → items p ≠ [] := by
    intro p hp1 hpk
    exact hne p (List.mem_range'_1.mpr ⟨hp1, by omega⟩)
  have E3 : ∀ p q, 1 ≤ p → p < q → q < k →
      pageHash (items p) ≠ pageHash (items q) := by
    intro p q hp1 hpq hqk
    exact hdist p (List.mem_range'_1.mpr ⟨hp1, by omega⟩)
      q (List.mem_range'_1.mpr ⟨by omega, by omega⟩) hpq
  have H3 : ∀ p, 2 ≤ p → p < k → items p ≠ items (p - 1) := by
    intro p hp2 hpk hcontra
    exact E3 (p - 1) p (by omega) (by omega) hpk
      (by rw [hcontra])
  have E1 : ∀ p, 1 ≤ p → p < k → oracleE p = .ok (items p) := by
    intro p hp1 hpk
    exact hokE p (List.mem_range'_1.mpr ⟨hp1, by omega⟩)
  have Hterm : ∀ (rest : List Nat) (prev : Option (List Rec)) (acc : List Rec),
      (k = 1 ∧ prev = none ∨ 2 ≤ k ∧ prev = some (items (k - 1))) →
      consumeWave oracle (k :: rest) prev acc = .inl acc := by
    intro rest prev acc _
    simp [consumeWave, hempty]
  have hfetch : (fetchAllRatings W oracle fuel).1
      = some (segRecs items 1 (k - 1)) := by
    have hrun := fetchGo_terminal W oracle items k hW H1 H2 H3 Hterm fuel 1 none []
      0 (by omega) hk (Or.inl ⟨rfl, rfl⟩) (by omega)
    unfold fetchAllRatings
    rw [hrun]
    simp
  have hseen0 : ∀ x : List Rec,
      x ∈ ([] : List (List Rec)) ↔ ∃ q, 1 ≤ q ∧ q < 1 ∧ x = pageHash (items q) := by
    intro x
    constructor
    · intro h
      exact absurd h (List.not_mem_nil x)
    · rintro ⟨q, hq1, hq2, -⟩
      omega
  obtain ⟨seen2, heq, hs2⟩ := loopAdd_run maxPages oracleE items k (by omega)
    E1 H2 E3 (k - 1) 1 [] [] 0 fuelE (by omega) (by omega) (by omega) hseen0
  have hharv : additionalHarvest maxPages oracleE fuelE
      = (.done (segRecs items 1 (k - 1)), k) := by
    unfold additionalHarvest
    rw [heq]
    obtain ⟨f2, hf2⟩ : ∃ f2, fuelE - (k - 1) = f2 + 1 := ⟨fuelE - (k - 1) - 1, by omega⟩
    rw [hf2]
    simp only [loopAdd]
    rw [if_neg (show ¬ maxPages < k from by omega)]
    simp only [hemptyE]
    rw [if_pos (show (([] : List Rec)).length = 0 from rfl)]
    simp only [List.nil_append]
    congr 1
    omega
  refine ⟨hfetch, hharv, ?_⟩
  simp [getAdditionalEmployeesData, hharv]

/-- Witness for C3: one non-empty page then an empty page 2; both engines
return page 1's records, the employee loop after exactly 2 requests. -/
theorem c3_witness :
    (fetchAllRatings 1
        (fun p => if p = 1 then some [⟨some "1", some "2024-01-01", 1⟩] else some [])
        2).1
      = some (segRecs (fun _ => [⟨some "1", some "2024-01-01", 1⟩]) 1 1)
    ∧ additionalHarvest 1000
        (fun p => if p = 1 then .ok [⟨some "1", some "2024-01-01", 1⟩] else .ok [])
        2
        = (.done (segRecs (fun _ => [⟨some "1", some "2024-01-01", 1⟩]) 1 1), 2)
    ∧ getAdditionalEmployeesData 1000
        (fun p => if p = 1 then .ok [⟨some "1", some "2024-01-01", 1⟩] else .ok [])
        2
        = (.done (filterLatest
            (segRecs (fun _ => [⟨some "1", some "2024-01-01", 1⟩]) 1 1)), 2) :=
  c3_empty_page_stops 1 2 2 1000 2
    (fun p => if p = 1 then some [⟨some "1", some "2024-01-01", 1⟩] else some [])
    (fun p => if p = 1 then .ok [⟨some "1", some "2024-01-01", 1⟩] else .ok [])
    (fun _ => [⟨some "1", some "2024-01-01", 1⟩])
    (by omega) (by omega) (by omega) (by decide) (by decide) (by decide) (by decide)
    (by decide) (by decide) (by omega) (by omega)

/-- C2: when pages 1 .. k-1 succeed, are non-empty and pairwise distinct, and
page k repeats the content of the immediately preceding non-empty page k-1,
both harvesting engines stop at page k and exclude its records:
fetch_all_ratings returns exactly the records of pages 1 .. k-1, and the
harvesting loop of get_additional_employees_data_from_api (which would stop on
a repeat of any earlier page) finishes with the same records after k page
requests, the function then returning their dedup-filtered form. -/
theorem c2_duplicate_page_stops (W k fuel maxPages fuelE : Nat)
    (oracle : Nat → Option (List Rec)) (oracleE : Nat → EResp)
    (items : Nat → List Rec)
    (hW : 1 ≤ W) (hk2 : 2 ≤ k) (hkm : k ≤ maxPages)
    (hok : ∀ p ∈ List.range' 1 (k - 1), oracle p = some (items p))
    (hokE : ∀ p ∈ List.range' 1 (k - 1), oracleE p = .ok (items p))
    (hne : ∀ p ∈ List.range' 1 (k - 1), items p ≠ [])
    (hdist : ∀ p ∈ List.range' 1 (k - 1), ∀ q ∈ List.range' 1 (k - 1), p < q →
      pageHash (items p) ≠ pageHash (items q))
    (hdup : oracle k = some (items k)) (hdupE : oracleE k = .ok (items k))
    (hkdup : items k = items (k - 1))
    (hfuel : k ≤ fuel) (hfuelE : k ≤ fuelE) :
    (fetchAllRatings W oracle fuel).1 = some (segRecs items 1 (k - 1))
    ∧ additionalHarvest maxPages oracleE fuelE
        = (.done (segRecs items 1 (k - 1)), k)
    ∧ getAdditionalEmployeesData maxPages oracleE fuelE
        = (.done (filterLatest (segRecs items 1 (k - 1))), k) := by
  have H1 : ∀ p, 1 ≤ p → p < k → oracle p = some (items p) := by
    intro p hp1 hpk
    exact hok p (List.mem_range'_1.mpr ⟨hp1, by omega⟩)
  have H2 : ∀ p, 1 ≤ p → p < k → items p ≠ [] := by
    intro p hp1 hpk
    exact hne p (List.mem_range'_1.mpr ⟨hp1, by omega⟩)
  have E3 : ∀ p q, 1 ≤ p → p < q → q < k →
      pageHash (items p) ≠ pageHash (items q) := by
    intro p q hp1 hpq hqk
    exact hdist p (List.mem_range'_1.mpr ⟨hp1, by omega⟩)
      q (List.mem_range'_1.mpr ⟨by omega, by omega⟩) hpq
  have H3 : ∀ p, 2 ≤ p → p < k → items p ≠ items (p - 1) := by
    intro p hp2 hpk hcontra
    exact E3 (p - 1) p (by omega) (by omega) hpk (by rw [hcontra])
  have E1 : ∀ p, 1 ≤ p → p < k → oracleE p = .ok (items p) := by
    intro p hp1 hpk
    exact hokE p (List.mem_range'_1.mpr ⟨hp1, by omega⟩)
  have hkm1 : items (k - 1) ≠ [] := H2 (k - 1) (by omega) (by omega)
  have hiknil : items k ≠ [] := by
    rw [hkdup]
    exact hkm1
  have Hterm : ∀ (rest : List Nat) (prev : Option (List Rec)) (acc : List Rec),
      (k = 1 ∧ prev = none ∨ 2 ≤ k ∧ prev = some (items (k - 1))) →
      consumeWave oracle (k :: rest) prev acc = .inl acc := by
    intro rest prev acc hp
    rcases hp with ⟨hk1, -⟩ | ⟨-, hps⟩
    · omega
    · rw [hps]
      simp only [consumeWave, hdup]
      rw [if_neg (by rw [List.isEmpty_iff]; exact hiknil)]
      have hd : prevDup (items k) (some (items (k - 1))) = true := by
        simp only [prevDup]
        rw [Bool.and_eq_true]
        constructor
        · simp [List.isEmpty_iff, hkm1]
        · rw [hkdup]
          exact pagesAreIdentical_self _ hkm1
      rw [if_pos hd]
  have hfetch : (fetchAllRatings W oracle fuel).1
      = some (segRecs items 1 (k - 1)) := by
    have hrun := fetchGo_terminal W oracle items k hW H1 H2 H3 Hterm fuel 1 none []
      0 (by omega) (by omega) (Or.inl ⟨rfl, rfl⟩) (by omega)
    unfold fetchAllRatings
    rw [hrun]
    simp
  have hseen0 : ∀ x : List Rec,
      x ∈ ([] : List (List Rec)) ↔ ∃ q, 1 ≤ q ∧ q < 1 ∧ x = pageHash (items q) := by
    intro x
    constructor
    · intro h
      exact absurd h (List.not_mem_nil x)
    · rintro ⟨q, hq1, hq2, -⟩
      omega
  obtain ⟨seen2, heq, hs2⟩ := loopAdd_run maxPages oracleE items k (by omega)
    E1 H2 E3 (k - 1) 1 [] [] 0 fuelE (by omega) (by omega) (by omega) hseen0
  have hharv : additionalHarvest maxPages oracleE fuelE
      = (.done (segRecs items 1 (k - 1)), k) := by
    unfold additionalHarvest
    rw [heq]
    obtain ⟨f2, hf2⟩ : ∃ f2, fuelE - (k - 1) = f2 + 1 := ⟨fuelE - (k - 1) - 1, by omega⟩
    rw [hf2]
    simp only [loopAdd]
    rw [if_neg (show ¬ maxPages < k from by omega)]
    simp only [hdupE]
    rw [if_neg (show ¬ (items k).length = 0 from by
      rw [List.length_eq_zero]; exact hiknil)]
    rw [if_pos (show pageHash (items k) ∈ seen2 from by
      rw [hs2]
      exact ⟨k - 1, by omega, by omega, by rw [hkdup]⟩)]
    simp only [List.nil_append]
    congr 1
    omega
  refine ⟨hfetch, hharv, ?_⟩
  simp [getAdditionalEmployeesData, hharv]

/-- Witness for C2: page 1 has one record, page 2 repeats it; both engines
return only page 1's records, the employee loop after 2 requests. -/
theorem c2_witness :
    (fetchAllRatings 1
        (fun _ => some [⟨some "1", some "2024-01-01", 1⟩]) 2).1
      = some (segRecs (fun _ => [⟨some "1", some "2024-01-01", 1⟩]) 1 1)
    ∧ additionalHarvest 1000
        (fun _ => .ok [⟨some "1", some "2024-01-01", 1⟩]) 2
        = (.done (segRecs (fun _ => [⟨some "1", some "2024-01-01", 1⟩]) 1 1), 2)
    ∧ getAdditionalEmployeesData 1000
        (fun _ => .ok [⟨some "1", some "2024-01-01", 1⟩]) 2
        = (.done (filterLatest
            (segRecs (fun _ => [⟨some "1", some "2024-01-01", 1⟩]) 1 1)), 2) :=
  c2_duplicate_page_stops 1 2 2 1000 2
    (fun _ => some [⟨some "1", some "2024-01-01", 1⟩])
    (fun _ => .ok [⟨some "1", some "2024-01-01", 1⟩])
    (fun _ => [⟨some "1", some "2024-01-01", 1⟩])
    (by omega) (by omega) (by omega) (by decide) (by decide) (by decide) (by decide)
    (by decide) (by decide) (by decide) (by omega) (by omega)

lemma segRecs_snoc (items : Nat → List Rec) (page : Nat) (h1 : 1 ≤ page) :
    segRecs items 1 (page - 1) ++ items page = segRecs items 1 page := by
  have h : page = (page - 1) + 1 := by omega
  conv_rhs => rw [h, segRecs_add]
  congr 1
  have h2 : 1 + (page - 1) = page := by omega
  rw [h2]
  simp [segRecs, List.range'_one]

lemma loopAll_run (maxPages : Nat) (oracleE : Nat → EResp) (items : Nat → List Rec)
    (A1 : ∀ p, 1 ≤ p → p ≤ maxPages → oracleE p = .ok (items p))
    (A2 : ∀ p, 1 ≤ p → p ≤ maxPages → items p ≠ [])
    (A3 : ∀ p, 1 ≤ p → p ≤ maxPages → ∀ r ∈ items p, r.id_employee ≠ none)
    (A4 : ∀ p q, 1 ≤ p → p < q → q ≤ maxPages →
      ∀ r ∈ items p, ∀ r2 ∈ items q, r.id_employee ≠ r2.id_employee) :
    ∀ (n page : Nat) (reqs fuel : Nat),
      1 ≤ page → page + n = maxPages + 1 → n ≤ fuel →
      loopAll maxPages oracleE page (segRecs items 1 (page - 1)) reqs fuel
        = loopAll maxPages oracleE (maxPages + 1) (segRecs items 1 maxPages)
            (reqs + n) (fuel - n) := by
  intro n
  induction n with
  | zero =>
    intro page reqs fuel h1 h2 h3
    have hpk : page = maxPages + 1 := by omega
    subst hpk
    simp
  | succ n ih =>
    intro page reqs fuel h1 h2 h3
    have hpM : page ≤ maxPages := by omega
    obtain ⟨fuel2, rfl⟩ : ∃ f2, fuel = f2 + 1 := ⟨fuel - 1, by omega⟩
    simp only [loopAll]
    rw [if_neg (show ¬ maxPages < page from by omega)]
    simp only [A1 page h1 hpM]
    rw [if_neg (show ¬ (items page).length = 0 from by
      rw [List.length_eq_zero]; exact A2 page h1 hpM)]
    rw [if_neg (show ¬ (items page).any (fun r => r.id_employee.isNone) = true from by
      rw [Bool.not_eq_true, List.any_eq_false]
      intro r hr
      rw [Bool.not_eq_true, Option.isNone_eq_false_iff, Option.isSome_iff_ne_none]
      exact A3 page h1 hpM r hr)]
    have hfilter : (items page).filter
        (fun r => r.id_employee ∉ (segRecs items 1 (page - 1)).map
          (fun r => r.id_employee)) = items page := by
      rw [List.filter_eq_self]
      intro r hr
      simp only [decide_eq_true_eq]
      intro hmem
      obtain ⟨r2, hr2seg, hid⟩ := List.mem_map.mp hmem
      obtain ⟨l0, hl0, hr2l0⟩ := List.mem_flatten.mp hr2seg
      obtain ⟨q, hq, hl0eq⟩ := List.mem_map.mp hl0
      have hqr := List.mem_range'_1.mp hq
      rw [← hl0eq] at hr2l0
      exact A4 q page hqr.1 (by omega) hpM r2 hr2l0 r hr hid
    rw [hfilter]
    rw [if_neg (show ¬ (items page).length = 0 from by
      rw [List.length_eq_zero]; exact A2 page h1 hpM)]
    rw [segRecs_snoc items page h1]
    have := ih (page + 1) (reqs + 1) fuel2 (by omega) (by omega) (by omega)
    rw [show page + 1 - 1 = page from by omega] at this
    rw [this,
      show reqs + 1 + n = reqs + (n + 1) from by omega,
      show fuel2 - n = fuel2 + 1 - (n + 1) from by omega]

lemma fetchGo_endless :
    ∀ (fuel page : Nat) (prev : Option (List Rec)) (acc : List Rec) (calls : Nat),
      1 ≤ page →
      (prev = none ∨ prev = some [⟨some "x", some "2024-01-01", page - 1⟩]) →
      (fetchGo 1 endlessOracle page prev acc calls fuel).1 = none := by
  intro fuel
  induction fuel with
  | zero => intro page prev acc calls _ _; simp [fetchGo]
  | succ f ih =>
    intro page prev acc calls h1 hprev
    simp only [fetchGo, List.range'_one]
    have hne : ([⟨some "x", some "2024-01-01", page⟩] : List Rec)
        ≠ [⟨some "x", some "2024-01-01", page - 1⟩] := by
      intro hcontra
      have := List.head_eq_of_cons_eq hcontra
      have hpay : page = page - 1 := congrArg Rec.payload this
      omega
    have hstep : consumeWave endlessOracle [page] prev acc
        = .inr (some [⟨some "x", some "2024-01-01", page⟩],
            acc ++ [⟨some "x", some "2024-01-01", page⟩]) := by
      simp only [consumeWave, endlessOracle]
      rw [if_neg (show ¬ ([(⟨some "x", some "2024-01-01", page⟩ : Rec)]).isEmpty
          = true from by simp)]
      rcases hprev with hp | hp
      · rw [hp]
        simp [prevDup, consumeWave]
      · rw [hp]
        rw [if_neg (show ¬ prevDup [⟨some "x", some "2024-01-01", page⟩]
            (some [⟨some "x", some "2024-01-01", page - 1⟩]) = true from by
          simp only [prevDup]
          rw [Bool.and_eq_true]
          rintro ⟨-, hident⟩
          rw [pagesAreIdentical_ne _ _ hne] at hident
          exact Bool.noConfusion hident)]
    rw [hstep]
    exact ih (page + 1) _ _ _ (by omega) (Or.inr (by simp))

/-- C10: the employee harvesters are page-capped — when every page up to
max_pages succeeds with non-empty records carrying fresh ids (no empty,
duplicate or failed page ever occurs), get_all_employees_from_api and the
harvesting loop of get_additional_employees_data_from_api stop after
processing exactly max_pages pages, issuing exactly max_pages page requests —
while fetch_all_ratings has no such cap: on an endless supply of non-empty,
non-repeating pages it never terminates (no fuel suffices). -/
theorem c10_page_caps (maxPages fuel : Nat) (oracleE : Nat → EResp)
    (items : Nat → List Rec)
    (hokE : ∀ p ∈ List.range' 1 maxPages, oracleE p = .ok (items p))
    (hne : ∀ p ∈ List.range' 1 maxPages, items p ≠ [])
    (hids : ∀ p ∈ List.range' 1 maxPages, ∀ r ∈ items p, r.id_employee ≠ none)
    (hfresh : ∀ p ∈ List.range' 1 maxPages, ∀ q ∈ List.range' 1 maxPages, p < q →
      ∀ r ∈ items p, ∀ r2 ∈ items q, r.id_employee ≠ r2.id_employee)
    (hfuel : maxPages + 1 ≤ fuel) :
    getAllEmployees maxPages oracleE fuel
      = (.done (segRecs items 1 maxPages), maxPages)
    ∧ additionalHarvest maxPages oracleE fuel
      = (.done (segRecs items 1 maxPages), maxPages)
    ∧ (∀ f : Nat, (fetchAllRatings 1 endlessOracle f).1 = none) := by
  have A1 : ∀ p, 1 ≤ p → p ≤ maxPages → oracleE p = .ok (items p) := by
    intro p hp1 hpM
    exact hokE p (List.mem_range'_1.mpr ⟨hp1, by omega⟩)
  have A2 : ∀ p, 1 ≤ p → p ≤ maxPages → items p ≠ [] := by
    intro p hp1 hpM
    exact hne p (List.mem_range'_1.mpr ⟨hp1, by omega⟩)
  have A3 : ∀ p, 1 ≤ p → p ≤ maxPages → ∀ r ∈ items p, r.id_employee ≠ none := by
    intro p hp1 hpM
    exact hids p (List.mem_range'_1.mpr ⟨hp1, by omega⟩)
  have A4 : ∀ p q, 1 ≤ p → p < q → q ≤ maxPages →
      ∀ r ∈ items p, ∀ r2 ∈ items q, r.id_employee ≠ r2.id_employee := by
    intro p q hp1 hpq hqM
    exact hfresh p (List.mem_range'_1.mpr ⟨hp1, by omega⟩)
      q (List.mem_range'_1.mpr ⟨by omega, by omega⟩) hpq
  constructor
  · have hrun := loopAll_run maxPages oracleE items A1 A2 A3 A4 maxPages 1 0 fuel
      (by omega) (by omega) (by omega)
    unfold getAllEmployees
    rw [show segRecs items 1 (1 - 1) = [] from by simp [segRecs]] at hrun
    rw [hrun]
    obtain ⟨f2, hf2⟩ : ∃ f2, fuel - maxPages = f2 + 1 := ⟨fuel - maxPages - 1, by omega⟩
    rw [hf2]
    simp only [loopAll]
    rw [if_pos (show maxPages < maxPages + 1 from by omega)]
    congr 1
    omega
  constructor
  · have E1 : ∀ p, 1 ≤ p → p < maxPages + 1 → oracleE p = .ok (items p) := by
      intro p hp1 hpk
      exact A1 p hp1 (by omega)
    have E2 : ∀ p, 1 ≤ p → p < maxPages + 1 → items p ≠ [] := by
      intro p hp1 hpk
      exact A2 p hp1 (by omega)
    have E3 : ∀ p q, 1 ≤ p → p < q → q < maxPages + 1 →
        pageHash (items p) ≠ pageHash (items q) := by
      intro p q hp1 hpq hqk hcontra
      obtain ⟨r, hr⟩ := List.exists_mem_of_ne_nil (items p) (A2 p hp1 (by omega))
      have hr1 : r ∈ pageHash (items p) := by
        unfold pageHash
        exact ((List.perm_insertionSort _ _).mem_iff).mpr hr
      rw [hcontra] at hr1
      have hr2 : r ∈ items q := by
        unfold pageHash at hr1
        exact ((List.perm_insertionSort _ _).mem_iff).mp hr1
      exact A4 p q hp1 hpq (by omega) r hr r hr2 rfl
    have hseen0 : ∀ x : List Rec,
        x ∈ ([] : List (List Rec))
          ↔ ∃ q, 1 ≤ q ∧ q < 1 ∧ x = pageHash (items q) := by
      intro x
      constructor
      · intro h
        exact absurd h (List.not_mem_nil x)
      · rintro ⟨q, hq1, hq2, -⟩
        omega
    obtain ⟨seen2, heq, hs2⟩ := loopAdd_run maxPages oracleE items (maxPages + 1)
      (by omega) E1 E2 E3 maxPages 1 [] [] 0 fuel (by omega) (by omega) (by omega)
      hseen0
    unfold additionalHarvest
    rw [heq]
    obtain ⟨f2, hf2⟩ : ∃ f2, fuel - maxPages = f2 + 1 := ⟨fuel - maxPages - 1, by omega⟩
    rw [hf2]
    simp only [loopAdd]
    rw [if_pos (show maxPages < maxPages + 1 from by omega)]
    simp only [List.nil_append]
    congr 1
    omega
  · intro f
    unfold fetchAllRatings
    exact fetchGo_endless f 1 none [] 0 (by omega) (Or.inl rfl)

/-- Witness for C10 at max_pages = 2, fuel 3, two non-empty pages with fresh
ids: both employee harvesters stop after exactly 2 requests, and the ratings
engine exhausts any fuel on the endless oracle. -/
theorem c10_witness :
    getAllEmployees 2
      (fun p => .ok [⟨some (toString p), some "2024-01-01", p⟩]) 3
      = (.done (segRecs (fun p => [⟨some (toString p), some "2024-01-01", p⟩]) 1 2), 2)
    ∧ additionalHarvest 2
      (fun p => .ok [⟨some (toString p), some "2024-01-01", p⟩]) 3
      = (.done (segRecs (fun p => [⟨some (toString p), some "2024-01-01", p⟩]) 1 2), 2)
    ∧ (∀ f : Nat, (fetchAllRatings 1 endlessOracle f).1 = none) :=
  c10_page_caps 2 3
    (fun p => .ok [⟨some (toString p), some "2024-01-01", p⟩])
    (fun p => [⟨some (toString p), some "2024-01-01", p⟩])
    (by decide) (by decide) (by decide) (by decide) (by omega)

end P2Rating
